import Mathlib

/-!
Verification development for the `UGraph` class of `ugraph.pyx` (emergylib).

The Cython class is shallowly embedded: the numpy arrays become total
functions over natural-number indices together with an explicit row count
`len` (rows beyond `len` hold the numpy default of the corresponding
array), machine doubles become rationals, and each `cdef` method becomes a
pure function from the state (or the data it reads) to the updated state
(or its result).  Window offsets are written `t` (the code's
`time - start_step`), absolute step numbers are written `time`.
-/

namespace Emergy

/-- Per-product coefficient table: `tbl t n` is the coefficient of node `n`
at window offset `t` (the code's `eme_coef[t, n, p]` slice at a fixed
product `p`). -/
def Tbl : Type := ℕ → ℕ → ℚ

/-- Write a single cell of a per-product coefficient table. -/
def updT (tbl : Tbl) (t n : ℕ) (v : ℚ) : Tbl :=
  fun t' n' => if t' = t ∧ n' = n then v else tbl t' n'

/-- Write one cell of a two-index rational array such as `input_value`. -/
def upd2Q (f : ℕ → ℕ → ℚ) (a b : ℕ) (v : ℚ) : ℕ → ℕ → ℚ :=
  fun x y => if x = a ∧ y = b then v else f x y

/-- Write one cell of a two-index boolean array such as `node`. -/
def upd2B (f : ℕ → ℕ → Bool) (a b : ℕ) (v : Bool) : ℕ → ℕ → Bool :=
  fun x y => if x = a ∧ y = b then v else f x y

/-- Write one cell of a three-index boolean array such as `suc` or
`active_product`. -/
def upd3B (f : ℕ → ℕ → ℕ → Bool) (a b c : ℕ) (v : Bool) : ℕ → ℕ → ℕ → Bool :=
  fun x y z => if x = a ∧ y = b ∧ z = c then v else f x y z

/-- Write one cell of a three-index natural array such as `suc_time`. -/
def upd3N (f : ℕ → ℕ → ℕ → ℕ) (a b c : ℕ) (v : ℕ) : ℕ → ℕ → ℕ → ℕ :=
  fun x y z => if x = a ∧ y = b ∧ z = c then v else f x y z

/-- Write one cell of a three-index rational array such as `suc_weight`. -/
def upd3Q (f : ℕ → ℕ → ℕ → ℚ) (a b c : ℕ) (v : ℚ) : ℕ → ℕ → ℕ → ℚ :=
  fun x y z => if x = a ∧ y = b ∧ z = c then v else f x y z

/-- Write one entry of a dictionary keyed by `(time, source, product)`. -/
def updD {α : Type} (f : ℕ × ℕ × ℕ → Option α) (k : ℕ × ℕ × ℕ) (v : Option α) :
    ℕ × ℕ × ℕ → Option α :=
  fun k' => if k' = k then v else f k'

/-- `np.iinfo(np.int).max` on a 64-bit platform, the sentinel stored in
fresh `suc_time` cells. -/
def maxIntConst : ℕ := 9223372036854775807

/-- Shallow embedding of the state of class `UGraph` (`ugraph.pyx`), plus
the read-only topology (`Graph`) and scenario (`State`) data that its
methods consult.  Array fields are total functions; `len` is the number of
retained rows (`len(self.node)`); rows `t ≥ len` are expected to hold the
numpy defaults.  The convergence dictionaries map a key to `none` when the
key is absent. -/
structure UGraph where
  numNodes : ℕ
  numSources : ℕ
  numProducts : ℕ
  EPSILON : ℚ
  NUM_CESARO : ℕ
  MAX_STEPS : ℕ
  timeStep : ℚ
  startStep : ℕ
  step : ℕ
  len : ℕ
  nodeType : ℕ → ℕ
  productNodeNumber : ℕ → ℕ
  productNumber : ℕ → ℕ
  sourceNodeNumber : ℕ → ℕ
  sourceNumber : ℕ → ℕ
  reachable : ℕ → List ℕ
  graphSuccessors : ℕ → List ℕ
  numStepsArc : ℕ → ℕ → ℕ
  isOperational : ℕ → ℕ → Bool
  weightArc : ℕ → ℕ → ℚ
  sourceFlow : ℕ → ℚ
  uev : ℕ → ℚ
  node : ℕ → ℕ → Bool
  suc : ℕ → ℕ → ℕ → Bool
  sucTime : ℕ → ℕ → ℕ → ℕ
  sucWeight : ℕ → ℕ → ℕ → ℚ
  inputValue : ℕ → ℕ → ℚ
  integratedInput : ℕ → ℕ → ℚ
  activeProduct : ℕ → ℕ → ℕ → Bool
  emeCoef : ℕ → ℕ → ℕ → ℚ
  empCoef : ℕ → ℕ → ℕ → ℚ
  lastEmeVal : ℕ × ℕ × ℕ → Option (List ℚ)
  lastEmpVal : ℕ × ℕ × ℕ → Option (List ℚ)
  totalEmpower : ℕ × ℕ × ℕ → Option ℚ
  arrivedEmergy : ℕ → ℚ
  flowingEmergy : ℕ → ℚ
  empower : ℕ → ℚ

/-- Method `extend(num_steps)`: append `k` fresh rows to every per-step
array; new rows hold each array's creation default (`False`, `_max_int`,
`0.0`, `-1.0`). -/
def extend (g : UGraph) (k : ℕ) : UGraph :=
  { g with
    len := g.len + k
    node := fun t n => if t < g.len then g.node t n else false
    suc := fun t n m => if t < g.len then g.suc t n m else false
    sucTime := fun t n m => if t < g.len then g.sucTime t n m else maxIntConst
    sucWeight := fun t n m => if t < g.len then g.sucWeight t n m else 0
    inputValue := fun t s => if t < g.len then g.inputValue t s else -1
    integratedInput := fun t s => if t < g.len then g.integratedInput t s else 0
    activeProduct := fun t s p => if t < g.len then g.activeProduct t s p else false }

/-- Method `add_node(t, num_node)`: extend the window so that absolute step
`t` has a row, then set the existence bit of node `num_node` at offset
`t - start_step`. -/
def add_node (g : UGraph) (t num_node : ℕ) : UGraph :=
  let g1 := if t + 1 > g.len then extend g (t + 1 - g.len) else g
  { g1 with node := upd2B g1.node (t - g1.startStep) num_node true }

/-- Method `add_successors(num_node, suc_list)`: for each
`(num_suc, t_suc, weight)` in `suc_list`, add node `(t_suc, num_suc)` and
record the weighted arc at the current step's row. -/
def add_successors (g : UGraph) (num_node : ℕ) (suc_list : List (ℕ × ℕ × ℚ)) : UGraph :=
  suc_list.foldl
    (fun g' si =>
      let g2 := add_node g' si.1 si.2.1
      let t := g2.step - g2.startStep
      { g2 with
        suc := upd3B g2.suc t num_node si.1 true
        sucTime := upd3N g2.sucTime t num_node si.1 si.2.1
        sucWeight := upd3Q g2.sucWeight t num_node si.1 si.2.2 })
    g

/-- Method `unfold()`: for every node existing at the current step's row,
add its operational successors, resolving each target step as
`step + num_steps[node, suc]` with the scenario weight. -/
def unfold (g : UGraph) : UGraph :=
  let offset := g.step - g.startStep
  if offset < g.len then
    (List.range g.numNodes).foldl
      (fun g' node =>
        if g'.node offset node then
          let suc_list := (g'.graphSuccessors node).filter
            (fun s => g'.isOperational node s)
          let suc_info := suc_list.map
            (fun s => (s, g'.step + g'.numStepsArc node s, g'.weightArc node s))
          add_successors g' node suc_info
        else g')
      g
  else g

/-- The inner test of `remove_inactive_inputs`: input `(t, source)` is
inactive when its stored value is nonnegative and no product reachable
from its source still has a true Active-Product Flag. -/
def inactiveInput (g : UGraph) (t source : ℕ) : Bool :=
  decide (0 ≤ g.inputValue t source) &&
  ((g.reachable (g.sourceNodeNumber source)).all
    (fun pn => ! g.activeProduct t source (g.productNumber pn)))

/-- Method `remove_inactive_inputs()`: clear the existence bit of every
inactive input node and reset its stored input and integrated values to
the sentinel `-1`. -/
def remove_inactive_inputs (g : UGraph) : UGraph :=
  let T := g.step - g.startStep
  { g with
    node := fun t n =>
      if (List.range g.numSources).any
          (fun s => decide (t ≤ T) && inactiveInput g t s &&
            decide (g.sourceNodeNumber s = n)) then false
      else g.node t n
    inputValue := fun t s =>
      if t ≤ T ∧ s < g.numSources ∧ inactiveInput g t s = true then -1
      else g.inputValue t s
    integratedInput := fun t s =>
      if t ≤ T ∧ s < g.numSources ∧ inactiveInput g t s = true then -1
      else g.integratedInput t s }

/-- The loop of `find_earliest_active_source`: scan offsets starting at `a`
with `fuel` iterations left, returning the first offset whose predicate
holds, and the last visited offset when none does. -/
def findFrom (pred : ℕ → Bool) : ℕ → ℕ → ℕ
  | a, 0 => a
  | a, fuel + 1 => if pred a then a else if fuel = 0 then a else findFrom pred (a + 1) fuel

/-- Method `find_earliest_active_source()`: first window offset at which
some source has a stored input value `≥ 0`; the last offset when there is
none. -/
def find_earliest_active_source (g : UGraph) : ℕ :=
  findFrom
    (fun t => (List.range g.numSources).any (fun s => decide (0 ≤ g.inputValue t s)))
    0 (g.step - g.startStep + 1)

/-- Method `reduce(num_steps)`: drop the first `k` rows of every per-step
array. -/
def reduce (g : UGraph) (k : ℕ) : UGraph :=
  { g with
    len := g.len - k
    node := fun t n => g.node (t + k) n
    suc := fun t n m => g.suc (t + k) n m
    sucTime := fun t n m => g.sucTime (t + k) n m
    sucWeight := fun t n m => g.sucWeight (t + k) n m
    inputValue := fun t s => g.inputValue (t + k) s
    integratedInput := fun t s => g.integratedInput (t + k) s
    activeProduct := fun t s p => g.activeProduct (t + k) s p }

/-- Method `remove_nodes_before_start_step()`: advance the window start to
the earliest offset holding an active source and drop the earlier rows. -/
def remove_nodes_before_start_step (g : UGraph) : UGraph :=
  let t := find_earliest_active_source g
  reduce { g with startStep := g.startStep + t } t

/-- Method `clean()`: remove inactive inputs, then trim the window head. -/
def clean (g : UGraph) : UGraph :=
  remove_nodes_before_start_step (remove_inactive_inputs g)

/-- Method `number_of_nodes()`: the code returns
`np.count_nonzero(self.active_product)` (its node-counting loop is
commented out and its `return n` is unreachable). -/
def number_of_nodes (g : UGraph) : ℕ :=
  ((List.range g.len).map (fun t =>
    ((List.range g.numSources).map (fun s =>
      ((List.range g.numProducts).filter (fun p => g.activeProduct t s p)).length)).sum)).sum

/-- Number of set node-existence bits in the retained window, i.e. what the
commented-out loop of `number_of_nodes` would have counted. -/
def nodeBitCount (g : UGraph) : ℕ :=
  ((List.range g.len).map (fun t =>
    ((List.range g.numNodes).filter (fun n => g.node t n)).length)).sum

/-!
Coefficient solver (`compute_emergy`, `emergy_coefficients`,
`empower_coefficients` and the four `*_suc_*_coef` helpers).

The code runs, for each product, a backward pass over window offsets
`T, T-1, …, 0` (with `T = step - start_step`) and, within an offset, over
node numbers `0, …, num_nodes - 1`, writing one cell of the product's
table slice per existing node.  The two passes (emergy and empower) differ
only in the per-cell formula, and different products never read each
other's slice, so each slice is embedded as one sequential fold over the
visit order.
-/

/-- Helper `sum_suc_eme_coef` / `sum_suc_emp_coef` (they differ only in
which table they read): sum over recorded successor arcs whose resolved
target step is at most the current step of arc weight times the successor
cell at the target step's offset.  `t` is the window offset of the node. -/
def sum_suc_coef (g : UGraph) (tbl : Tbl) (t node : ℕ) : ℚ :=
  (List.range g.numNodes).foldl
    (fun val suc =>
      if g.suc t node suc = true ∧ g.sucTime t node suc ≤ g.step then
        val + g.sucWeight t node suc * tbl (g.sucTime t node suc - g.startStep) suc
      else val)
    0

/-- Helper `max_suc_eme_coef` / `max_suc_emp_coef`: same arc set as
`sum_suc_coef`, but the running value starts at `0` and is replaced by an
arc's weighted cell only when that product is strictly larger. -/
def max_suc_coef (g : UGraph) (tbl : Tbl) (t node : ℕ) : ℚ :=
  (List.range g.numNodes).foldl
    (fun val suc =>
      if g.suc t node suc = true ∧ g.sucTime t node suc ≤ g.step then
        (if g.sucWeight t node suc * tbl (g.sucTime t node suc - g.startStep) suc > val
         then g.sucWeight t node suc * tbl (g.sucTime t node suc - g.startStep) suc
         else val)
      else val)
    0

/-- Per-cell formula of `emergy_coefficients` for product number `p` at
window offset `t` (the code's `time - start_step`): `1` for the target
product node, successor sum for split (type 1) and tank (type 3), successor
maximum for coproduct (type 2), and gated successor sum times integrated
input for a source (type 0). -/
def emeVal (g : UGraph) (p : ℕ) (tbl : Tbl) (t node : ℕ) : ℚ :=
  let ty := g.nodeType node
  if ty = 4 then
    (if node = g.productNodeNumber p then 1 else 0)
  else if ty = 1 ∨ ty = 3 then
    sum_suc_coef g tbl t node
  else if ty = 2 then
    max_suc_coef g tbl t node
  else if ty = 0 then
    (if g.activeProduct t (g.sourceNumber node) p = true then
      sum_suc_coef g tbl t node * g.integratedInput t (g.sourceNumber node)
     else 0)
  else 0

/-- Per-cell formula of `empower_coefficients`: as `emeVal` except that the
product node scores `1` only at the current step's offset, and a source
additionally requires a positive stored input value and divides by the
step duration. -/
def empVal (g : UGraph) (p : ℕ) (tbl : Tbl) (t node : ℕ) : ℚ :=
  let ty := g.nodeType node
  if ty = 4 then
    (if node = g.productNodeNumber p ∧ t = g.step - g.startStep then 1 else 0)
  else if ty = 1 ∨ ty = 3 then
    sum_suc_coef g tbl t node
  else if ty = 2 then
    max_suc_coef g tbl t node
  else if ty = 0 then
    (if g.activeProduct t (g.sourceNumber node) p = true ∧
        g.inputValue t (g.sourceNumber node) > 0 then
      sum_suc_coef g tbl t node * g.integratedInput t (g.sourceNumber node) / g.timeStep
     else 0)
  else 0

/-- Keys `(t, 0), …, (t, N-1)` of one window row, in node order. -/
def rowKeys (t : ℕ) : ℕ → List (ℕ × ℕ)
  | 0 => []
  | m + 1 => rowKeys t m ++ [(t, m)]

/-- Visit order of a coefficient pass: rows `T, T-1, …, 0`, each row in
node order. -/
def passKeysFrom (N : ℕ) : ℕ → List (ℕ × ℕ)
  | 0 => rowKeys 0 N
  | t + 1 => rowKeys (t + 1) N ++ passKeysFrom N t

/-- One visit of a coefficient pass: write the cell of an existing node,
skip a nonexisting one. -/
def passStep (g : UGraph) (cell : Tbl → ℕ → ℕ → ℚ) (tbl : Tbl) (k : ℕ × ℕ) : Tbl :=
  if g.node k.1 k.2 = true then updT tbl k.1 k.2 (cell tbl k.1 k.2) else tbl

/-- A whole per-product pass over a freshly zeroed slice. -/
def runPass (g : UGraph) (cell : Tbl → ℕ → ℕ → ℚ) : Tbl :=
  (passKeysFrom g.numNodes (g.step - g.startStep)).foldl (passStep g cell) (fun _ _ => 0)

/-- Method `emergy_coefficients` as the table it leaves in `eme_coef`. -/
def emergy_coefficients (g : UGraph) : ℕ → ℕ → ℕ → ℚ :=
  fun t n p => runPass g (emeVal g p) t n

/-- Method `empower_coefficients` as the table it leaves in `emp_coef`. -/
def empower_coefficients (g : UGraph) : ℕ → ℕ → ℕ → ℚ :=
  fun t n p => runPass g (empVal g p) t n

/-- Method `compute_emergy()`: allocate fresh coefficient tables and fill
them with the two passes; nothing else is written. -/
def compute_emergy (g : UGraph) : UGraph :=
  { g with
    emeCoef := emergy_coefficients g
    empCoef := empower_coefficients g }

/-!
Input admission and integration (`compute_inputs`,
`compute_integrated_inputs`, `add_input_nodes`, `add_inputs`).
-/

/-- The per-source decision of `compute_inputs`: `some v` when an input
event with stored value `v` is admitted at the current step.  A positive
raw value `flow · uev · time_step` is stored as is; a nonpositive one is
stored as the terminating `0` exactly when the previous step is retained
and holds a positive stored value; otherwise no event is admitted. -/
def inputDecision (g : UGraph) (source : ℕ) : Option ℚ :=
  let s := g.sourceNodeNumber source
  let val := g.sourceFlow s * g.uev s * g.timeStep
  if val > 0 then some val
  else if g.startStep + 1 ≤ g.step ∧
      g.inputValue (g.step - 1 - g.startStep) source > 0 then some 0
  else none

/-- One iteration of the `compute_inputs` loop: record an admitted event
in the list and write its stored value into the current step's row. -/
def inputStep (g : UGraph) (acc : List (ℕ × ℕ) × (ℕ → ℕ → ℚ)) (source : ℕ) :
    List (ℕ × ℕ) × (ℕ → ℕ → ℚ) :=
  match inputDecision g source with
  | some v =>
    (acc.1 ++ [(g.step, source)], upd2Q acc.2 (g.step - g.startStep) source v)
  | none => acc

/-- Method `compute_inputs()`: the admitted `(step, source)` list together
with the updated `input_value` array. -/
def compute_inputs (g : UGraph) : List (ℕ × ℕ) × (ℕ → ℕ → ℚ) :=
  (List.range g.numSources).foldl (inputStep g) ([], g.inputValue)

/-- The value `0.5 * (previous + flow)` that `compute_integrated_inputs`
stores for an admitted input, reading the (already updated) `input_value`
array `iv`: the previous step's stored value counts only when the previous
step is retained and the value is positive. -/
def integratedOf (g : UGraph) (iv : ℕ → ℕ → ℚ) (source : ℕ) : ℚ :=
  let previous : ℚ :=
    if g.startStep + 1 ≤ g.step ∧ iv (g.step - 1 - g.startStep) source > 0 then
      iv (g.step - 1 - g.startStep) source
    else 0
  let flow := iv (g.step - g.startStep) source
  (1 / 2) * (previous + flow)

/-- One iteration of the `compute_integrated_inputs` loop. -/
def integStep (g : UGraph) (iv : ℕ → ℕ → ℚ) (tab : ℕ → ℕ → ℚ) (ts : ℕ × ℕ) :
    ℕ → ℕ → ℚ :=
  upd2Q tab (ts.1 - g.startStep) ts.2 (integratedOf g iv ts.2)

/-- Method `compute_integrated_inputs(inputs)` given the updated
`input_value` array: write the trapezoidal value of every admitted input
into `integrated_input`. -/
def compute_integrated_inputs (g : UGraph) (iv : ℕ → ℕ → ℚ)
    (inputs : List (ℕ × ℕ)) : ℕ → ℕ → ℚ :=
  inputs.foldl (integStep g iv) g.integratedInput

/-- Method `add_input_nodes(inputs)`: add the source node of each admitted
input and, for every product reachable from that source, set the
Active-Product Flag and open fresh convergence-state entries. -/
def add_input_nodes (g : UGraph) (inputs : List (ℕ × ℕ)) : UGraph :=
  inputs.foldl
    (fun g' ts =>
      let s := g'.sourceNodeNumber ts.2
      let g2 := add_node g' ts.1 s
      (g2.reachable s).foldl
        (fun g3 productNode =>
          let p := g3.productNumber productNode
          { g3 with
            activeProduct := upd3B g3.activeProduct (ts.1 - g3.startStep) ts.2 p true
            lastEmeVal := updD g3.lastEmeVal (ts.1, ts.2, p) (some [])
            lastEmpVal := updD g3.lastEmpVal (ts.1, ts.2, p) (some [])
            totalEmpower := updD g3.totalEmpower (ts.1, ts.2, p) (some 0) })
        g2)
    g

/-- Method `add_inputs()`: admit, integrate and register the current
step's inputs, or extend the window by one empty row when none is
admitted. -/
def add_inputs (g : UGraph) : UGraph :=
  let ci := compute_inputs g
  let g1 := { g with inputValue := ci.2 }
  if ci.1.isEmpty then extend g1 1
  else
    add_input_nodes
      { g1 with integratedInput := compute_integrated_inputs g1 g1.inputValue ci.1 }
      ci.1

/-!
Convergence tracker (`convergence`, `convergence2`, `CesaroCriterion`,
`increaseCesaro`, `set_arrived`, `set_flowing`).

The loop body of `convergence` for one pending candidate is embedded as
the pure kernel `classifyK` over exactly the values the body reads: the
candidate's coefficients `eme`/`emp`, its integrated input, its stored raw
input value, the current and origin steps, and the candidate's recorded
history (`last_eme_val`, `last_emp_val`, `total_empower`).
-/

/-- Recorded history of one pending candidate `(time, source, product)`. -/
structure CState where
  lastEme : List ℚ
  lastEmp : List ℚ
  totalEmp : ℚ
  deriving DecidableEq

/-- What the loop body of `convergence` does to the product accumulators
for one candidate: `arrived e m` stands for `set_arrived(…, e, m)` and
`flowing e m` for `set_flowing(…, e, m)`. -/
inductive Outcome where
  | arrived (eme emp : ℚ)
  | flowing (eme emp : ℚ)
  deriving DecidableEq

/-- Method `CesaroCriterion(t, s, p)`: sum the sample window and count its
positive entries; succeed when at least one entry is positive and the sum
divided by the positive count is below `total_empower / NUM_CESARO ·
EPSILON`. -/
def CesaroCriterion (EPS : ℚ) (NCES : ℕ) (lastEmp : List ℚ) (totalEmp : ℚ) : Bool :=
  let val := (lastEmp.filter (fun x => x > 0)).length
  let empSum := lastEmp.sum
  decide (0 < val) && decide (empSum / (val : ℚ) < totalEmp / (NCES : ℚ) * EPS)

/-- The part of the `convergence` loop body that follows criteria 1 and 2
(the `else` of line `last_eme.append(eme)` onwards): record the emergy
sample, then apply the young-candidate bookkeeping or criteria 3 and 4. -/
def flowTail (EPS : ℚ) (NCES MAXS : ℕ) (step time : ℕ) (eme emp : ℚ)
    (cs : CState) : Outcome × Option CState :=
  let le1 := cs.lastEme ++ [eme]
  if step < time + MAXS then
    if emp > 0 ∧ cs.lastEmp.length < NCES then
      (.flowing eme emp, some ⟨le1, cs.lastEmp ++ [emp], cs.totalEmp + emp⟩)
    else
      (.flowing eme emp, some ⟨le1, cs.lastEmp, cs.totalEmp⟩)
  else
    if eme - le1.headD 0 ≤ EPS * eme then
      (.arrived eme 0, none)
    else
      let le2 := le1.tail
      if cs.lastEmp.length < NCES then
        if emp > 0 then
          (.flowing eme emp, some ⟨le2, cs.lastEmp ++ [emp], cs.totalEmp + emp⟩)
        else
          (.flowing eme emp, some ⟨le2, cs.lastEmp, cs.totalEmp⟩)
      else
        if CesaroCriterion EPS NCES cs.lastEmp cs.totalEmp then
          (.arrived eme 0, none)
        else
          (.flowing eme emp, some ⟨le2, cs.lastEmp.tail ++ [emp], cs.totalEmp⟩)

/-- The loop body of `convergence` for one pending candidate: the four
criteria in code order, returning the accumulator effect and the
candidate's surviving history (`none` when `set_arrived` deleted it). -/
def classifyK (EPS : ℚ) (NCES MAXS : ℕ) (dt : ℚ) (step time : ℕ)
    (eme emp intInput rawInput : ℚ) (cs : CState) : Outcome × Option CState :=
  if 1 - emp * dt / intInput ≤ EPS then
    (.arrived intInput (rawInput / dt), none)
  else if 1 - eme / intInput ≤ EPS then
    (.arrived intInput 0, none)
  else
    flowTail EPS NCES MAXS step time eme emp cs

/-- The classification that sentence two of claim C3 describes, stated
from the spec's words for comparison with the code: a terminating
zero-value event (stored raw input 0) skips criteria 1 and 2 and goes
directly to the flowing/aged logic, while every other candidate is
classified exactly as by `classifyK`. -/
def classifyKSkipZero (EPS : ℚ) (NCES MAXS : ℕ) (dt : ℚ) (step time : ℕ)
    (eme emp intInput rawInput : ℚ) (cs : CState) : Outcome × Option CState :=
  if rawInput = 0 then
    flowTail EPS NCES MAXS step time eme emp cs
  else
    classifyK EPS NCES MAXS dt step time eme emp intInput rawInput cs

/-- Method `set_arrived(t, s, p, eme, emp)`: credit the arrived emergy and
empower to product `p`, clear the candidate's Active-Product Flag, and
delete all three of its history entries. -/
def set_arrived (g : UGraph) (time s p : ℕ) (eme emp : ℚ) : UGraph :=
  { g with
    arrivedEmergy := fun q => if q = p then g.arrivedEmergy p + eme else g.arrivedEmergy q
    empower := fun q => if q = p then g.empower p + emp else g.empower q
    activeProduct := upd3B g.activeProduct (time - g.startStep) s p false
    lastEmeVal := updD g.lastEmeVal (time, s, p) none
    lastEmpVal := updD g.lastEmpVal (time, s, p) none
    totalEmpower := updD g.totalEmpower (time, s, p) none }

/-- Method `set_flowing(p, eme, emp)`: credit still-flowing emergy and
empower to product `p`. -/
def set_flowing (g : UGraph) (p : ℕ) (eme emp : ℚ) : UGraph :=
  { g with
    flowingEmergy := fun q => if q = p then g.flowingEmergy p + eme else g.flowingEmergy q
    empower := fun q => if q = p then g.empower p + emp else g.empower q }

/-- The loop body of `convergence` for candidate `(time, source, prod)` as
a state transformer: read the candidate's coefficients and history, run
`classifyK`, and apply its effect through `set_arrived` / `set_flowing`,
writing back the surviving history. -/
def classifyCandidate (g : UGraph) (time source prod : ℕ) : UGraph :=
  let t := time - g.startStep
  if g.activeProduct t source prod = true then
    let s := g.sourceNodeNumber source
    let eme := g.emeCoef t s prod
    let emp := g.empCoef t s prod
    let intInput := g.integratedInput t source
    let raw := g.inputValue t source
    match g.lastEmeVal (time, source, prod), g.lastEmpVal (time, source, prod),
        g.totalEmpower (time, source, prod) with
    | some le, some lp, some te =>
      let r := classifyK g.EPSILON g.NUM_CESARO g.MAX_STEPS g.timeStep g.step time
        eme emp intInput raw ⟨le, lp, te⟩
      match r.1, r.2 with
      | .arrived e m, _ => set_arrived g time source prod e m
      | .flowing e m, some cs =>
        let g1 := set_flowing g prod e m
        { g1 with
          lastEmeVal := updD g1.lastEmeVal (time, source, prod) (some cs.lastEme)
          lastEmpVal := updD g1.lastEmpVal (time, source, prod) (some cs.lastEmp)
          totalEmpower := updD g1.totalEmpower (time, source, prod) (some cs.totalEmp) }
      | .flowing _ _, none => g
    | _, _, _ => g
  else g

/-!
Lemmas about the coefficient passes.  The pass visits every key exactly
once, rows in decreasing order and nodes in increasing order within a row,
so the final value of a visited cell is its formula applied to a table
that already agrees with the final table on all strictly later rows.
-/

theorem rowKeys_mem {t N : ℕ} {k : ℕ × ℕ} (h : k ∈ rowKeys t N) :
    k.1 = t ∧ k.2 < N := by
  induction N with
  | zero => simp [rowKeys] at h
  | succ m ih =>
    simp only [rowKeys, List.mem_append, List.mem_singleton] at h
    rcases h with h | h
    · rcases ih h with ⟨h1, h2⟩; exact ⟨h1, Nat.lt_succ_of_lt h2⟩
    · subst h; exact ⟨rfl, Nat.lt_succ_self m⟩

theorem rowKeys_split {t n N : ℕ} (h : n < N) :
    ∃ S1, rowKeys t N = rowKeys t n ++ (t, n) :: S1 ∧
      ∀ k ∈ S1, k.1 = t ∧ n < k.2 := by
  induction N with
  | zero => omega
  | succ m ih =>
    rcases Nat.lt_succ_iff_lt_or_eq.mp h with h' | h'
    · rcases ih h' with ⟨S1, hS1, hmem⟩
      refine ⟨S1 ++ [(t, m)], ?_, ?_⟩
      · simp only [rowKeys, hS1]; simp
      · intro k hk
        rcases List.mem_append.mp hk with hk | hk
        · exact hmem k hk
        · simp only [List.mem_singleton] at hk; subst hk; exact ⟨rfl, h'⟩
    · subst h'
      exact ⟨[], by simp [rowKeys], by simp⟩

theorem passKeysFrom_mem {N T : ℕ} {k : ℕ × ℕ} (h : k ∈ passKeysFrom N T) :
    k.1 ≤ T ∧ k.2 < N := by
  induction T with
  | zero =>
    simp only [passKeysFrom] at h
    rcases rowKeys_mem h with ⟨h1, h2⟩; omega
  | succ u ih =>
    simp only [passKeysFrom, List.mem_append] at h
    rcases h with h | h
    · rcases rowKeys_mem h with ⟨h1, h2⟩; omega
    · rcases ih h with ⟨h1, h2⟩; omega

theorem passKeysFrom_prefix {N T t : ℕ} (h : t ≤ T) :
    ∃ P0, passKeysFrom N T = P0 ++ passKeysFrom N t ∧ ∀ k ∈ P0, t < k.1 := by
  induction T with
  | zero =>
    have : t = 0 := Nat.le_zero.mp h
    subst this; exact ⟨[], by simp, by simp⟩
  | succ u ih =>
    rcases Nat.lt_succ_iff_lt_or_eq.mp (Nat.lt_succ_of_le h) with h' | h'
    · rcases ih (by omega) with ⟨P0, hP0, hmem⟩
      refine ⟨rowKeys (u + 1) N ++ P0, ?_, ?_⟩
      · simp only [passKeysFrom, hP0, List.append_assoc]
      · intro k hk
        rcases List.mem_append.mp hk with hk | hk
        · have := rowKeys_mem hk; omega
        · exact hmem k hk
    · subst h'; exact ⟨[], by simp, by simp⟩

theorem passKeysFrom_decomp {N T t n : ℕ} (ht : t ≤ T) (hn : n < N) :
    ∃ P S, passKeysFrom N T = P ++ (t, n) :: S ∧
      ∀ k ∈ S, k.1 < t ∨ (k.1 = t ∧ n < k.2) := by
  rcases passKeysFrom_prefix (N := N) ht with ⟨P0, hP0, _⟩
  rcases rowKeys_split (t := t) hn with ⟨S1, hS1, hS1mem⟩
  cases t with
  | zero =>
    refine ⟨P0 ++ rowKeys 0 n, S1, ?_, ?_⟩
    · rw [hP0]; simp only [passKeysFrom, hS1, List.append_assoc]
    · intro k hk; exact Or.inr (hS1mem k hk)
  | succ u =>
    refine ⟨P0 ++ rowKeys (u + 1) n, S1 ++ passKeysFrom N u, ?_, ?_⟩
    · rw [hP0]; simp only [passKeysFrom, hS1, List.append_assoc, List.cons_append]
    · intro k hk
      rcases List.mem_append.mp hk with hk | hk
      · exact Or.inr (hS1mem k hk)
      · have := passKeysFrom_mem hk; omega

theorem passStep_ne (g : UGraph) (cell : Tbl → ℕ → ℕ → ℚ) (tbl : Tbl)
    (k : ℕ × ℕ) (t n : ℕ) (h : ¬(k.1 = t ∧ k.2 = n)) :
    passStep g cell tbl k t n = tbl t n := by
  unfold passStep updT
  by_cases hb : g.node k.1 k.2 = true
  · rw [if_pos hb]
    exact if_neg (fun hc => h ⟨hc.1.symm, hc.2.symm⟩)
  · rw [if_neg hb]

theorem foldl_passStep_untouched (g : UGraph) (cell : Tbl → ℕ → ℕ → ℚ)
    (l : List (ℕ × ℕ)) (tbl : Tbl) (t n : ℕ)
    (h : ∀ k ∈ l, ¬(k.1 = t ∧ k.2 = n)) :
    (l.foldl (passStep g cell) tbl) t n = tbl t n := by
  induction l generalizing tbl with
  | nil => rfl
  | cons k l ih =>
    rw [List.foldl_cons, ih _ (fun k' hk' => h k' (List.mem_cons_of_mem k hk'))]
    exact passStep_ne g cell tbl k t n (h k (List.mem_cons_self k l))

theorem foldl_passStep_lowRows (g : UGraph) (cell : Tbl → ℕ → ℕ → ℚ)
    (l : List (ℕ × ℕ)) (tbl : Tbl) (r t n : ℕ)
    (h : ∀ k ∈ l, k.1 ≤ r) (ht : r < t) :
    (l.foldl (passStep g cell) tbl) t n = tbl t n := by
  apply foldl_passStep_untouched
  intro k hk hc
  have := h k hk
  omega

/-- Final-value lemma for a pass: the final cell of an existing node equals
its formula applied to some table agreeing with the final table on all
strictly later rows. -/
theorem runPass_eq_cell (g : UGraph) (cell : Tbl → ℕ → ℕ → ℚ) (t n : ℕ)
    (ht : t ≤ g.step - g.startStep) (hn : n < g.numNodes)
    (hb : g.node t n = true) :
    ∃ tbl : Tbl, (∀ u m, t < u → tbl u m = runPass g cell u m) ∧
      runPass g cell t n = cell tbl t n := by
  rcases passKeysFrom_decomp (N := g.numNodes) (T := g.step - g.startStep) ht hn with
    ⟨P, S, hPS, hSmem⟩
  set B : Tbl := P.foldl (passStep g cell) (fun _ _ => 0) with hB
  refine ⟨B, ?_, ?_⟩
  · intro u m hu
    have h1 : runPass g cell u m =
        (((t, n) :: S).foldl (passStep g cell) B) u m := by
      unfold runPass
      rw [hPS, List.foldl_append]
    rw [h1]
    rw [foldl_passStep_lowRows g cell _ B t u m ?_ hu]
    intro k hk
    rcases List.mem_cons.mp hk with hk | hk
    · subst hk; exact Nat.le_refl t
    · rcases hSmem k hk with h' | h' <;> omega
  · have h1 : runPass g cell t n =
        (S.foldl (passStep g cell) (passStep g cell B (t, n))) t n := by
      unfold runPass
      rw [hPS, List.foldl_append, List.foldl_cons]
    rw [h1]
    rw [foldl_passStep_untouched g cell S _ t n ?_]
    · unfold passStep updT
      rw [if_pos hb]
      simp
    · intro k hk hc
      rcases hSmem k hk with h' | h' <;> omega

/-- `sum_suc_coef` reads the table only at the resolved successor rows of
successors below `num_nodes`. -/
theorem sum_suc_coef_congr (g : UGraph) (tbl tbl' : Tbl) (t node : ℕ)
    (h : ∀ s, s < g.numNodes → g.suc t node s = true → g.sucTime t node s ≤ g.step →
      tbl (g.sucTime t node s - g.startStep) s = tbl' (g.sucTime t node s - g.startStep) s) :
    sum_suc_coef g tbl t node = sum_suc_coef g tbl' t node := by
  unfold sum_suc_coef
  suffices hgen : ∀ (l : List ℕ), (∀ s ∈ l, s < g.numNodes) → ∀ (v : ℚ),
      l.foldl (fun val suc =>
        if g.suc t node suc = true ∧ g.sucTime t node suc ≤ g.step then
          val + g.sucWeight t node suc * tbl (g.sucTime t node suc - g.startStep) suc
        else val) v
      = l.foldl (fun val suc =>
        if g.suc t node suc = true ∧ g.sucTime t node suc ≤ g.step then
          val + g.sucWeight t node suc * tbl' (g.sucTime t node suc - g.startStep) suc
        else val) v by
    exact hgen _ (fun s hs => List.mem_range.mp hs) 0
  intro l
  induction l with
  | nil => intro _ v; rfl
  | cons s l ih =>
    intro hl v
    have hs := hl s (List.mem_cons_self s l)
    have hrest := fun s' hs' => hl s' (List.mem_cons_of_mem s hs')
    simp only [List.foldl_cons]
    by_cases hc : g.suc t node s = true ∧ g.sucTime t node s ≤ g.step
    · rw [if_pos hc, if_pos hc, h s hs hc.1 hc.2, ih hrest]
    · rw [if_neg hc, if_neg hc, ih hrest]

/-- `max_suc_coef` reads the table only at the resolved successor rows of
successors below `num_nodes`. -/
theorem max_suc_coef_congr (g : UGraph) (tbl tbl' : Tbl) (t node : ℕ)
    (h : ∀ s, s < g.numNodes → g.suc t node s = true → g.sucTime t node s ≤ g.step →
      tbl (g.sucTime t node s - g.startStep) s = tbl' (g.sucTime t node s - g.startStep) s) :
    max_suc_coef g tbl t node = max_suc_coef g tbl' t node := by
  unfold max_suc_coef
  suffices hgen : ∀ (l : List ℕ), (∀ s ∈ l, s < g.numNodes) → ∀ (v : ℚ),
      l.foldl (fun val suc =>
        if g.suc t node suc = true ∧ g.sucTime t node suc ≤ g.step then
          (if g.sucWeight t node suc * tbl (g.sucTime t node suc - g.startStep) suc > val
           then g.sucWeight t node suc * tbl (g.sucTime t node suc - g.startStep) suc
           else val)
        else val) v
      = l.foldl (fun val suc =>
        if g.suc t node suc = true ∧ g.sucTime t node suc ≤ g.step then
          (if g.sucWeight t node suc * tbl' (g.sucTime t node suc - g.startStep) suc > val
           then g.sucWeight t node suc * tbl' (g.sucTime t node suc - g.startStep) suc
           else val)
        else val) v by
    exact hgen _ (fun s hs => List.mem_range.mp hs) 0
  intro l
  induction l with
  | nil => intro _ v; rfl
  | cons s l ih =>
    intro hl v
    have hs := hl s (List.mem_cons_self s l)
    have hrest := fun s' hs' => hl s' (List.mem_cons_of_mem s hs')
    simp only [List.foldl_cons]
    by_cases hc : g.suc t node s = true ∧ g.sucTime t node s ≤ g.step
    · rw [if_pos hc, if_pos hc, h s hs hc.1 hc.2, ih hrest]
    · rw [if_neg hc, if_neg hc, ih hrest]

/-- `emeVal` depends on the table only through the two helpers. -/
theorem emeVal_congr (g : UGraph) (p : ℕ) (tbl tbl' : Tbl) (t n : ℕ)
    (hsum : sum_suc_coef g tbl t n = sum_suc_coef g tbl' t n)
    (hmax : max_suc_coef g tbl t n = max_suc_coef g tbl' t n) :
    emeVal g p tbl t n = emeVal g p tbl' t n := by
  unfold emeVal
  rw [hsum, hmax]

/-- `empVal` depends on the table only through the two helpers. -/
theorem empVal_congr (g : UGraph) (p : ℕ) (tbl tbl' : Tbl) (t n : ℕ)
    (hsum : sum_suc_coef g tbl t n = sum_suc_coef g tbl' t n)
    (hmax : max_suc_coef g tbl t n = max_suc_coef g tbl' t n) :
    empVal g p tbl t n = empVal g p tbl' t n := by
  unfold empVal
  rw [hsum, hmax]

/-- The weighted cell values of the resolved successor arcs of a node (the
arcs whose recorded target step is at most the current step), in node
order. -/
def resolvedArcVals (g : UGraph) (tbl : Tbl) (t node : ℕ) : List ℚ :=
  ((List.range g.numNodes).filter
    (fun s => decide (g.suc t node s = true ∧ g.sucTime t node s ≤ g.step))).map
    (fun s => g.sucWeight t node s * tbl (g.sucTime t node s - g.startStep) s)

theorem foldl_filter_map {α β γ : Type} (P : α → Prop) [DecidablePred P]
    (f : α → β) (op : γ → β → γ) :
    ∀ (l : List α) (v : γ),
      l.foldl (fun v s => if P s then op v (f s) else v) v
        = ((l.filter (fun s => decide (P s))).map f).foldl op v := by
  intro l
  induction l with
  | nil => intro v; rfl
  | cons s l ih =>
    intro v
    by_cases hs : P s
    · simp only [List.foldl_cons, List.filter_cons, if_pos hs, decide_eq_true hs,
        List.map_cons, List.foldl_cons]
      exact ih _
    · simp only [List.foldl_cons, List.filter_cons, if_neg hs,
        decide_eq_false hs, Bool.false_eq_true, ite_false]
      exact ih _

/-- `max_suc_coef` is the running-maximum fold, started at `0`, of the
resolved arc values. -/
theorem max_suc_coef_eq_fold (g : UGraph) (tbl : Tbl) (t node : ℕ) :
    max_suc_coef g tbl t node
      = (resolvedArcVals g tbl t node).foldl (fun v x => if x > v then x else v) 0 := by
  unfold max_suc_coef resolvedArcVals
  exact foldl_filter_map
    (fun s => g.suc t node s = true ∧ g.sucTime t node s ≤ g.step)
    (fun s => g.sucWeight t node s * tbl (g.sucTime t node s - g.startStep) s)
    (fun v x => if x > v then x else v) (List.range g.numNodes) 0

/-- `sum_suc_coef` is the sum of the resolved arc values. -/
theorem sum_suc_coef_eq_sum (g : UGraph) (tbl : Tbl) (t node : ℕ) :
    sum_suc_coef g tbl t node = (resolvedArcVals g tbl t node).sum := by
  unfold sum_suc_coef resolvedArcVals
  rw [foldl_filter_map
    (fun s => g.suc t node s = true ∧ g.sucTime t node s ≤ g.step)
    (fun s => g.sucWeight t node s * tbl (g.sucTime t node s - g.startStep) s)
    (fun v x => v + x) (List.range g.numNodes) 0]
  rw [List.sum_eq_foldl]

theorem foldl_runMax_le (l : List ℚ) : ∀ v : ℚ,
    v ≤ l.foldl (fun v x => if x > v then x else v) v := by
  induction l with
  | nil => intro v; exact le_refl v
  | cons x l ih =>
    intro v
    rw [List.foldl_cons]
    by_cases hx : x > v
    · rw [if_pos hx]; exact le_trans (le_of_lt hx) (ih x)
    · rw [if_neg hx]; exact ih v

theorem foldl_runMax_ge_mem (l : List ℚ) : ∀ (v x : ℚ), x ∈ l →
    x ≤ l.foldl (fun v x => if x > v then x else v) v := by
  induction l with
  | nil => intro v x hx; simp at hx
  | cons y l ih =>
    intro v x hx
    rw [List.foldl_cons]
    rcases List.mem_cons.mp hx with hx | hx
    · subst hx
      by_cases hy : x > v
      · rw [if_pos hy]; exact foldl_runMax_le l x
      · rw [if_neg hy]; exact le_trans (not_lt.mp hy) (foldl_runMax_le l v)
    · exact ih _ x hx

theorem foldl_runMax_mem_or (l : List ℚ) : ∀ v : ℚ,
    l.foldl (fun v x => if x > v then x else v) v = v ∨
      l.foldl (fun v x => if x > v then x else v) v ∈ l := by
  induction l with
  | nil => intro v; exact Or.inl rfl
  | cons x l ih =>
    intro v
    rw [List.foldl_cons]
    by_cases hx : x > v
    · rw [if_pos hx]
      rcases ih x with h | h
      · exact Or.inr (by rw [h]; exact List.mem_cons_self x l)
      · exact Or.inr (List.mem_cons_of_mem x h)
    · rw [if_neg hx]
      rcases ih v with h | h
      · exact Or.inl h
      · exact Or.inr (List.mem_cons_of_mem x h)

theorem mem_resolvedArcVals {g : UGraph} {tbl : Tbl} {t n : ℕ} {x : ℚ} :
    x ∈ resolvedArcVals g tbl t n ↔
      ∃ s, s < g.numNodes ∧ g.suc t n s = true ∧ g.sucTime t n s ≤ g.step ∧
        x = g.sucWeight t n s * tbl (g.sucTime t n s - g.startStep) s := by
  unfold resolvedArcVals
  constructor
  · intro hx
    rcases List.mem_map.mp hx with ⟨s, hs, hfs⟩
    rcases List.mem_filter.mp hs with ⟨hrange, hpred⟩
    have hp := of_decide_eq_true hpred
    exact ⟨s, List.mem_range.mp hrange, hp.1, hp.2, hfs.symm⟩
  · rintro ⟨s, hs, hsuc, hres, hx⟩
    apply List.mem_map.mpr
    refine ⟨s, List.mem_filter.mpr ⟨List.mem_range.mpr hs, decide_eq_true ⟨hsuc, hres⟩⟩, hx.symm⟩

/-- The emergy pass writes, into the cell of an existing coproduct node
whose recorded arcs all resolve strictly later, the running maximum of the
resolved arc values taken over the final emergy table. -/
theorem emergy_coproduct_cell (g : UGraph) (p t n : ℕ)
    (ht : t ≤ g.step - g.startStep) (hn : n < g.numNodes) (hb : g.node t n = true)
    (hty : g.nodeType n = 2)
    (harc : ∀ s, s < g.numNodes → g.suc t n s = true →
      t + g.startStep < g.sucTime t n s) :
    emergy_coefficients g t n p
      = max_suc_coef g (fun u m => emergy_coefficients g u m p) t n := by
  obtain ⟨tbl, hagree, heq⟩ := runPass_eq_cell g (emeVal g p) t n ht hn hb
  have hmax : max_suc_coef g tbl t n
      = max_suc_coef g (fun u m => emergy_coefficients g u m p) t n := by
    apply max_suc_coef_congr
    intro s hs hsuc _
    exact hagree _ s (by have := harc s hs hsuc; omega)
  have hcell : emergy_coefficients g t n p = emeVal g p tbl t n := heq
  rw [hcell, ← hmax]
  unfold emeVal
  rw [hty]
  norm_num

/-- The empower pass analogue of `emergy_coproduct_cell`. -/
theorem empower_coproduct_cell (g : UGraph) (p t n : ℕ)
    (ht : t ≤ g.step - g.startStep) (hn : n < g.numNodes) (hb : g.node t n = true)
    (hty : g.nodeType n = 2)
    (harc : ∀ s, s < g.numNodes → g.suc t n s = true →
      t + g.startStep < g.sucTime t n s) :
    empower_coefficients g t n p
      = max_suc_coef g (fun u m => empower_coefficients g u m p) t n := by
  obtain ⟨tbl, hagree, heq⟩ := runPass_eq_cell g (empVal g p) t n ht hn hb
  have hmax : max_suc_coef g tbl t n
      = max_suc_coef g (fun u m => empower_coefficients g u m p) t n := by
    apply max_suc_coef_congr
    intro s hs hsuc _
    exact hagree _ s (by have := harc s hs hsuc; omega)
  have hcell : empower_coefficients g t n p = empVal g p tbl t n := heq
  rw [hcell, ← hmax]
  unfold empVal
  rw [hty]
  norm_num

/-- With at least one resolved arc and no negative resolved arc value, the
running-maximum fold started at `0` is a genuine maximum of the list. -/
theorem max_spec_of_fold (vals : List ℚ) (c : ℚ)
    (hc : c = vals.foldl (fun v x => if x > v then x else v) 0)
    (hne : vals ≠ []) (hnn : ∀ x ∈ vals, 0 ≤ x) :
    c ∈ vals ∧ ∀ x ∈ vals, x ≤ c := by
  have hub : ∀ x ∈ vals, x ≤ c := by
    intro x hx; rw [hc]; exact foldl_runMax_ge_mem vals 0 x hx
  refine ⟨?_, hub⟩
  rcases foldl_runMax_mem_or vals 0 with h | h
  · rcases List.exists_mem_of_ne_nil vals hne with ⟨y, hy⟩
    have h0 : c = 0 := hc.trans h
    have hyle : y ≤ c := hub y hy
    have hy0 : y = 0 := le_antisymm (h0 ▸ hyle) (hnn y hy)
    rw [h0, ← hy0]
    exact hy
  · rw [hc]; exact h

/-- Concrete state for the worked coproduct instance of the spec: node 0
is a coproduct existing at step 0 with two arcs of weight 1 to split nodes
1 and 2 at step 1; the splits reach the product node 3 at step 2 with
weights 3 and 5, so their emergy coefficients toward product 0 are 3 and
5.  The current step is 2. -/
def exC1 : UGraph where
  numNodes := 4
  numSources := 0
  numProducts := 1
  EPSILON := 0
  NUM_CESARO := 1
  MAX_STEPS := 1
  timeStep := 1
  startStep := 0
  step := 2
  len := 3
  nodeType := fun n => if n = 0 then 2 else if n = 3 then 4 else 1
  productNodeNumber := fun _ => 3
  productNumber := fun _ => 0
  sourceNodeNumber := fun _ => 0
  sourceNumber := fun _ => 0
  reachable := fun _ => []
  graphSuccessors := fun _ => []
  numStepsArc := fun _ _ => 1
  isOperational := fun _ _ => false
  weightArc := fun _ _ => 0
  sourceFlow := fun _ => 0
  uev := fun _ => 0
  node := fun t n =>
    decide ((t = 0 ∧ n = 0) ∨ (t = 1 ∧ (n = 1 ∨ n = 2)) ∨ (t = 2 ∧ n = 3))
  suc := fun t n m =>
    decide ((t = 0 ∧ n = 0 ∧ (m = 1 ∨ m = 2)) ∨ (t = 1 ∧ (n = 1 ∨ n = 2) ∧ m = 3))
  sucTime := fun t n m =>
    if t = 0 ∧ n = 0 ∧ (m = 1 ∨ m = 2) then 1
    else if t = 1 ∧ (n = 1 ∨ n = 2) ∧ m = 3 then 2
    else maxIntConst
  sucWeight := fun t n m =>
    if t = 0 ∧ n = 0 ∧ (m = 1 ∨ m = 2) then 1
    else if t = 1 ∧ n = 1 ∧ m = 3 then 3
    else if t = 1 ∧ n = 2 ∧ m = 3 then 5
    else 0
  inputValue := fun _ _ => -1
  integratedInput := fun _ _ => 0
  activeProduct := fun _ _ _ => false
  emeCoef := fun _ _ _ => 0
  empCoef := fun _ _ _ => 0
  lastEmeVal := fun _ => none
  lastEmpVal := fun _ => none
  totalEmpower := fun _ => none
  arrivedEmergy := fun _ => 0
  flowingEmergy := fun _ => 0
  empower := fun _ => 0

/-- Evaluation of the emergy pass on `exC1`: the coproduct cell holds the
maximum 5 of the two successor contributions. -/
theorem exC1_eval : emergy_coefficients exC1 0 0 0 = 5 := by
  norm_num [emergy_coefficients, runPass, passKeysFrom, rowKeys, passStep, updT, emeVal,
    max_suc_coef, sum_suc_coef, exC1, maxIntConst, List.range_succ]

/-- Evaluation on `exC1`: the sum rule over the same resolved arcs would
give 8 instead. -/
theorem exC1_sum_eval :
    sum_suc_coef exC1 (fun u m => emergy_coefficients exC1 u m 0) 0 0 = 8 := by
  norm_num [emergy_coefficients, runPass, passKeysFrom, rowKeys, passStep, updT, emeVal,
    max_suc_coef, sum_suc_coef, exC1, maxIntConst, List.range_succ]

/-- C1: for every coproduct node (type 2) all of whose recorded arcs
resolve strictly after its own step and at least one of whose arcs
resolves at or before the current simulation step, the emergy and the
empower coefficient computed by the solver both equal the maximum over the
resolved arcs of arc weight times the successor coefficient at its target
step — never the sum; in particular on `exC1`, whose coproduct sees
successor coefficients 3 and 5 under weights 1 and 1, the computed
coefficient is 5 while the sum of the same contributions is 8. -/
theorem claim_C1 (g : UGraph) (p t n : ℕ)
    (ht : t ≤ g.step - g.startStep) (hn : n < g.numNodes) (hb : g.node t n = true)
    (hty : g.nodeType n = 2)
    (harc : ∀ s, s < g.numNodes → g.suc t n s = true → t + g.startStep < g.sucTime t n s)
    (hres : ∃ s, s < g.numNodes ∧ g.suc t n s = true ∧ g.sucTime t n s ≤ g.step)
    (hnnE : ∀ s, s < g.numNodes → g.suc t n s = true → g.sucTime t n s ≤ g.step →
      0 ≤ g.sucWeight t n s * emergy_coefficients g (g.sucTime t n s - g.startStep) s p)
    (hnnP : ∀ s, s < g.numNodes → g.suc t n s = true → g.sucTime t n s ≤ g.step →
      0 ≤ g.sucWeight t n s * empower_coefficients g (g.sucTime t n s - g.startStep) s p) :
    ((∃ s, s < g.numNodes ∧ g.suc t n s = true ∧ g.sucTime t n s ≤ g.step ∧
        emergy_coefficients g t n p
          = g.sucWeight t n s * emergy_coefficients g (g.sucTime t n s - g.startStep) s p) ∧
      (∀ s, s < g.numNodes → g.suc t n s = true → g.sucTime t n s ≤ g.step →
        g.sucWeight t n s * emergy_coefficients g (g.sucTime t n s - g.startStep) s p
          ≤ emergy_coefficients g t n p)) ∧
    ((∃ s, s < g.numNodes ∧ g.suc t n s = true ∧ g.sucTime t n s ≤ g.step ∧
        empower_coefficients g t n p
          = g.sucWeight t n s * empower_coefficients g (g.sucTime t n s - g.startStep) s p) ∧
      (∀ s, s < g.numNodes → g.suc t n s = true → g.sucTime t n s ≤ g.step →
        g.sucWeight t n s * empower_coefficients g (g.sucTime t n s - g.startStep) s p
          ≤ empower_coefficients g t n p)) ∧
    (emergy_coefficients exC1 0 0 0 = 5 ∧
      sum_suc_coef exC1 (fun u m => emergy_coefficients exC1 u m 0) 0 0 = 8 ∧
      (5 : ℚ) ≠ 8) := by
  have hE := emergy_coproduct_cell g p t n ht hn hb hty harc
  rw [max_suc_coef_eq_fold] at hE
  have hP := empower_coproduct_cell g p t n ht hn hb hty harc
  rw [max_suc_coef_eq_fold] at hP
  obtain ⟨s0, hs0, hsuc0, hres0⟩ := hres
  have hmemE : g.sucWeight t n s0 *
      emergy_coefficients g (g.sucTime t n s0 - g.startStep) s0 p
      ∈ resolvedArcVals g (fun u m => emergy_coefficients g u m p) t n :=
    mem_resolvedArcVals.mpr ⟨s0, hs0, hsuc0, hres0, rfl⟩
  have hmemP : g.sucWeight t n s0 *
      empower_coefficients g (g.sucTime t n s0 - g.startStep) s0 p
      ∈ resolvedArcVals g (fun u m => empower_coefficients g u m p) t n :=
    mem_resolvedArcVals.mpr ⟨s0, hs0, hsuc0, hres0, rfl⟩
  have hspecE := max_spec_of_fold _ _ hE (List.ne_nil_of_mem hmemE) ?nnE
  case nnE =>
    intro x hx
    rcases mem_resolvedArcVals.mp hx with ⟨s, hs, hsuc, hr, hxeq⟩
    rw [hxeq]; exact hnnE s hs hsuc hr
  have hspecP := max_spec_of_fold _ _ hP (List.ne_nil_of_mem hmemP) ?nnP
  case nnP =>
    intro x hx
    rcases mem_resolvedArcVals.mp hx with ⟨s, hs, hsuc, hr, hxeq⟩
    rw [hxeq]; exact hnnP s hs hsuc hr
  refine ⟨⟨?_, ?_⟩, ⟨?_, ?_⟩, exC1_eval, exC1_sum_eval, by norm_num⟩
  · rcases mem_resolvedArcVals.mp hspecE.1 with ⟨s, hs, hsuc, hr, hxeq⟩
    exact ⟨s, hs, hsuc, hr, hxeq⟩
  · intro s hs hsuc hr
    exact hspecE.2 _ (mem_resolvedArcVals.mpr ⟨s, hs, hsuc, hr, rfl⟩)
  · rcases mem_resolvedArcVals.mp hspecP.1 with ⟨s, hs, hsuc, hr, hxeq⟩
    exact ⟨s, hs, hsuc, hr, hxeq⟩
  · intro s hs hsuc hr
    exact hspecP.2 _ (mem_resolvedArcVals.mpr ⟨s, hs, hsuc, hr, rfl⟩)

/-- Witness for C1 at the concrete state `exC1`. -/
theorem claim_C1_witness :
    (∃ s, s < exC1.numNodes ∧ exC1.suc 0 0 s = true ∧ exC1.sucTime 0 0 s ≤ exC1.step ∧
      emergy_coefficients exC1 0 0 0
        = exC1.sucWeight 0 0 s *
            emergy_coefficients exC1 (exC1.sucTime 0 0 s - exC1.startStep) s 0) ∧
    (∀ s, s < exC1.numNodes → exC1.suc 0 0 s = true → exC1.sucTime 0 0 s ≤ exC1.step →
      exC1.sucWeight 0 0 s *
          emergy_coefficients exC1 (exC1.sucTime 0 0 s - exC1.startStep) s 0
        ≤ emergy_coefficients exC1 0 0 0) := by
  have hnnE : ∀ s, s < exC1.numNodes → exC1.suc 0 0 s = true →
      exC1.sucTime 0 0 s ≤ exC1.step →
      0 ≤ exC1.sucWeight 0 0 s *
        emergy_coefficients exC1 (exC1.sucTime 0 0 s - exC1.startStep) s 0 := by
    intro s hs hsuc hr
    have hs4 : s < 4 := hs
    interval_cases s
    · exact absurd hsuc (by decide)
    · norm_num [emergy_coefficients, runPass, passKeysFrom, rowKeys, passStep, updT,
        emeVal, max_suc_coef, sum_suc_coef, exC1, maxIntConst, List.range_succ]
    · norm_num [emergy_coefficients, runPass, passKeysFrom, rowKeys, passStep, updT,
        emeVal, max_suc_coef, sum_suc_coef, exC1, maxIntConst, List.range_succ]
    · exact absurd hsuc (by decide)
  have hnnP : ∀ s, s < exC1.numNodes → exC1.suc 0 0 s = true →
      exC1.sucTime 0 0 s ≤ exC1.step →
      0 ≤ exC1.sucWeight 0 0 s *
        empower_coefficients exC1 (exC1.sucTime 0 0 s - exC1.startStep) s 0 := by
    intro s hs hsuc hr
    have hs4 : s < 4 := hs
    interval_cases s
    · exact absurd hsuc (by decide)
    · norm_num [empower_coefficients, runPass, passKeysFrom, rowKeys, passStep, updT,
        empVal, max_suc_coef, sum_suc_coef, exC1, maxIntConst, List.range_succ]
    · norm_num [empower_coefficients, runPass, passKeysFrom, rowKeys, passStep, updT,
        empVal, max_suc_coef, sum_suc_coef, exC1, maxIntConst, List.range_succ]
    · exact absurd hsuc (by decide)
  exact (claim_C1 exC1 0 0 0 (by decide) (by decide) (by decide) (by decide)
    (by decide) ⟨1, by decide, by decide, by decide⟩ hnnE hnnP).1

/-- C9: calling `compute_emergy` twice in succession with no intervening
operation produces the same coefficient tables as calling it once, and a
call leaves every other component of the engine state unchanged: the
solver reads but never writes the graph, input, flag and bookkeeping
data. -/
theorem claim_C9 (g : UGraph) :
    compute_emergy (compute_emergy g) = compute_emergy g ∧
    (compute_emergy g).node = g.node ∧
    (compute_emergy g).suc = g.suc ∧
    (compute_emergy g).sucTime = g.sucTime ∧
    (compute_emergy g).sucWeight = g.sucWeight ∧
    (compute_emergy g).inputValue = g.inputValue ∧
    (compute_emergy g).integratedInput = g.integratedInput ∧
    (compute_emergy g).activeProduct = g.activeProduct ∧
    (compute_emergy g).startStep = g.startStep ∧
    (compute_emergy g).step = g.step ∧
    (compute_emergy g).len = g.len ∧
    (compute_emergy g).lastEmeVal = g.lastEmeVal ∧
    (compute_emergy g).lastEmpVal = g.lastEmpVal ∧
    (compute_emergy g).totalEmpower = g.totalEmpower ∧
    (compute_emergy g).arrivedEmergy = g.arrivedEmergy ∧
    (compute_emergy g).flowingEmergy = g.flowingEmergy ∧
    (compute_emergy g).empower = g.empower := by
  refine ⟨rfl, rfl, rfl, rfl, rfl, rfl, rfl, rfl, rfl, rfl, rfl, rfl, rfl, rfl,
    rfl, rfl, rfl⟩

/-- A state with one existing node and no true Active-Product Flag. -/
def exC10a : UGraph :=
  { exC1 with
    numNodes := 1
    numSources := 1
    numProducts := 1
    len := 1
    node := fun t n => decide (t = 0 ∧ n = 0)
    suc := fun _ _ _ => false
    activeProduct := fun _ _ _ => false }

/-- A state with no existing node but two true Active-Product Flags. -/
def exC10b : UGraph :=
  { exC10a with
    numProducts := 2
    node := fun _ _ => false
    activeProduct := fun t s p => decide (t = 0 ∧ s = 0 ∧ (p = 0 ∨ p = 1)) }

/-- C10: `number_of_nodes()` returns the number of true (step, source,
product) Active-Product Flags — `np.count_nonzero(active_product)` — not
the number of existing nodes: it is 0 whenever every flag is clear, it is
0 on a state that has an existing node but no flag, it exceeds the number
of set node-existence bits on a state with two flags and no node, and it
does not depend on the node-existence array at all. -/
theorem claim_C10 :
    (∀ g : UGraph,
      (∀ t s p, t < g.len → s < g.numSources → p < g.numProducts →
        g.activeProduct t s p = false) →
      number_of_nodes g = 0) ∧
    (0 < nodeBitCount exC10a ∧ number_of_nodes exC10a = 0) ∧
    (nodeBitCount exC10b < number_of_nodes exC10b) ∧
    (∀ (g : UGraph) (f : ℕ → ℕ → Bool),
      number_of_nodes { g with node := f } = number_of_nodes g) := by
  refine ⟨?_, by decide, by decide, fun g f => rfl⟩
  intro g hflags
  unfold number_of_nodes
  apply List.sum_eq_zero
  intro x hx
  rcases List.mem_map.mp hx with ⟨t, ht, hxt⟩
  rw [← hxt]
  apply List.sum_eq_zero
  intro y hy
  rcases List.mem_map.mp hy with ⟨s, hs, hys⟩
  rw [← hys]
  rw [List.length_eq_zero]
  apply List.filter_eq_nil_iff.mpr
  intro p hp
  rw [hflags t s p (List.mem_range.mp ht) (List.mem_range.mp hs) (List.mem_range.mp hp)]
  simp

/-- Witness for C10: the all-flags-clear clause applied to the concrete
state `exC10a`. -/
theorem claim_C10_witness : number_of_nodes exC10a = 0 := by
  exact claim_C10.1 exC10a (fun t s p _ _ _ => rfl)

/-- C4: for every pending candidate (flag set, history entries present)
whose empower criterion `1 − emp·step_duration/I ≤ EPSILON` holds, the
classification declares it arrived: it adds the integrated input `I` to
the product's arrived emergy, adds `raw_input/step_duration` to the
product's empower, clears the candidate's Active-Product Flag and deletes
all three of its convergence-state entries. -/
theorem claim_C4 (g : UGraph) (time source prod : ℕ) (le lp : List ℚ) (te : ℚ)
    (hact : g.activeProduct (time - g.startStep) source prod = true)
    (hle : g.lastEmeVal (time, source, prod) = some le)
    (hlp : g.lastEmpVal (time, source, prod) = some lp)
    (hte : g.totalEmpower (time, source, prod) = some te)
    (hcrit : 1 - g.empCoef (time - g.startStep) (g.sourceNodeNumber source) prod *
        g.timeStep / g.integratedInput (time - g.startStep) source ≤ g.EPSILON) :
    (classifyCandidate g time source prod).arrivedEmergy prod
        = g.arrivedEmergy prod + g.integratedInput (time - g.startStep) source ∧
    (classifyCandidate g time source prod).empower prod
        = g.empower prod + g.inputValue (time - g.startStep) source / g.timeStep ∧
    (classifyCandidate g time source prod).activeProduct
        (time - g.startStep) source prod = false ∧
    (classifyCandidate g time source prod).lastEmeVal (time, source, prod) = none ∧
    (classifyCandidate g time source prod).lastEmpVal (time, source, prod) = none ∧
    (classifyCandidate g time source prod).totalEmpower (time, source, prod) = none := by
  have hrun : classifyCandidate g time source prod
      = set_arrived g time source prod
          (g.integratedInput (time - g.startStep) source)
          (g.inputValue (time - g.startStep) source / g.timeStep) := by
    unfold classifyCandidate
    simp only [hact, hle, hlp, hte, if_pos rfl]
    unfold classifyK
    rw [if_pos hcrit]
    simp
  rw [hrun]
  unfold set_arrived upd3B updD
  refine ⟨by simp, by simp, by simp, by simp, by simp, by simp⟩

/-- Concrete pending candidate for the C4 witness: flag set at
`(0, 0, 0)`, empower coefficient 1, integrated input 1, raw input 2,
`EPSILON = 1/10`, so the empower criterion holds with slack 0. -/
def exC4 : UGraph :=
  { exC1 with
    numNodes := 1
    numSources := 1
    numProducts := 1
    EPSILON := 1 / 10
    timeStep := 1
    startStep := 0
    step := 0
    len := 1
    sourceNodeNumber := fun _ => 0
    node := fun _ _ => false
    suc := fun _ _ _ => false
    activeProduct := fun t s p => decide (t = 0 ∧ s = 0 ∧ p = 0)
    inputValue := fun t s => if t = 0 ∧ s = 0 then 2 else -1
    integratedInput := fun t s => if t = 0 ∧ s = 0 then 1 else 0
    empCoef := fun _ _ _ => 1
    emeCoef := fun _ _ _ => 0
    lastEmeVal := fun k => if k = (0, 0, 0) then some [] else none
    lastEmpVal := fun k => if k = (0, 0, 0) then some [] else none
    totalEmpower := fun k => if k = (0, 0, 0) then some 0 else none }

/-- Witness for C4 at the concrete candidate `exC4`. -/
theorem claim_C4_witness :
    (classifyCandidate exC4 0 0 0).arrivedEmergy 0 = 1 ∧
    (classifyCandidate exC4 0 0 0).empower 0 = 2 ∧
    (classifyCandidate exC4 0 0 0).activeProduct 0 0 0 = false ∧
    (classifyCandidate exC4 0 0 0).lastEmeVal (0, 0, 0) = none := by
  have h := claim_C4 exC4 0 0 0 [] [] 0 (by decide) (by decide) (by decide)
    (by decide) (by norm_num [exC4, exC1])
  refine ⟨?_, ?_, h.2.2.1, h.2.2.2.1⟩
  · rw [h.1]; norm_num [exC4, exC1]
  · rw [h.2.1]; norm_num [exC4, exC1]

/-!
Lemmas about input admission and integration.
-/

theorem foldl_inputStep_mem (g : UGraph) :
    ∀ (l : List ℕ) (acc : List (ℕ × ℕ) × (ℕ → ℕ → ℚ)) (t s : ℕ),
      ((t, s) ∈ (l.foldl (inputStep g) acc).1
        ↔ (t, s) ∈ acc.1 ∨ (s ∈ l ∧ t = g.step ∧ inputDecision g s ≠ none)) := by
  intro l
  induction l with
  | nil => intro acc t s; simp
  | cons a l ih =>
    intro acc t s
    rw [List.foldl_cons, ih]
    have hstep : (t, s) ∈ (inputStep g acc a).1
        ↔ (t, s) ∈ acc.1 ∨ (s = a ∧ t = g.step ∧ inputDecision g a ≠ none) := by
      unfold inputStep
      cases hda : inputDecision g a with
      | some v =>
        simp only [List.mem_append, List.mem_singleton, Prod.mk.injEq]
        constructor
        · rintro (h | ⟨h1, h2⟩)
          · exact Or.inl h
          · exact Or.inr ⟨h2, h1, fun hc => Option.noConfusion hc⟩
        · rintro (h | ⟨h1, h2, _⟩)
          · exact Or.inl h
          · exact Or.inr ⟨h2, h1⟩
      | none =>
        simp only [iff_self_or]
        rintro ⟨_, _, hne⟩
        exact absurd rfl hne
    rw [hstep]
    constructor
    · rintro ((h | ⟨h1, h2, h3⟩) | ⟨h1, h2, h3⟩)
      · exact Or.inl h
      · exact Or.inr ⟨by rw [h1]; exact List.mem_cons_self a l, h2, by rw [h1]; exact h3⟩
      · exact Or.inr ⟨List.mem_cons_of_mem a h1, h2, h3⟩
    · rintro (h | ⟨h1, h2, h3⟩)
      · exact Or.inl (Or.inl h)
      · rcases List.mem_cons.mp h1 with h1 | h1
        · exact Or.inl (Or.inr ⟨h1, h2, by rw [← h1]; exact h3⟩)
        · exact Or.inr ⟨h1, h2, h3⟩

theorem foldl_inputStep_preserve (g : UGraph) :
    ∀ (l : List ℕ) (acc : List (ℕ × ℕ) × (ℕ → ℕ → ℚ)) (u s : ℕ),
      (u ≠ g.step - g.startStep ∨ s ∉ l) →
      (l.foldl (inputStep g) acc).2 u s = acc.2 u s := by
  intro l
  induction l with
  | nil => intro acc u s _; rfl
  | cons a l ih =>
    intro acc u s h
    rw [List.foldl_cons]
    have hnotl : u ≠ g.step - g.startStep ∨ s ∉ l := by
      rcases h with h | h
      · exact Or.inl h
      · exact Or.inr (fun hs => h (List.mem_cons_of_mem a hs))
    rw [ih _ u s hnotl]
    unfold inputStep
    cases inputDecision g a with
    | some v =>
      simp only []
      unfold upd2Q
      rw [if_neg]
      rintro ⟨h1, h2⟩
      rcases h with h | h
      · exact h h1
      · exact h (by rw [h2]; exact List.mem_cons_self a l)
    | none => rfl

theorem foldl_inputStep_val (g : UGraph) :
    ∀ (l : List ℕ) (acc : List (ℕ × ℕ) × (ℕ → ℕ → ℚ)) (s : ℕ) (v : ℚ),
      inputDecision g s = some v → s ∈ l →
      (l.foldl (inputStep g) acc).2 (g.step - g.startStep) s = v := by
  intro l
  induction l with
  | nil => intro acc s v _ hs; simp at hs
  | cons a l ih =>
    intro acc s v hv hs
    rw [List.foldl_cons]
    by_cases hsl : s ∈ l
    · exact ih _ s v hv hsl
    · have hsa : s = a := by
        rcases List.mem_cons.mp hs with h | h
        · exact h
        · exact absurd h hsl
      rw [foldl_inputStep_preserve g l _ _ s (Or.inr hsl)]
      unfold inputStep
      rw [← hsa, hv]
      simp only []
      unfold upd2Q
      rw [if_pos ⟨rfl, rfl⟩]

theorem foldl_integStep_preserve (g : UGraph) (iv : ℕ → ℕ → ℚ) :
    ∀ (ins : List (ℕ × ℕ)) (tab : ℕ → ℕ → ℚ) (u s : ℕ),
      (∀ q ∈ ins, ¬(q.1 - g.startStep = u ∧ q.2 = s)) →
      (ins.foldl (integStep g iv) tab) u s = tab u s := by
  intro ins
  induction ins with
  | nil => intro tab u s _; rfl
  | cons q ins ih =>
    intro tab u s h
    rw [List.foldl_cons, ih _ u s (fun q' hq' => h q' (List.mem_cons_of_mem q hq'))]
    unfold integStep upd2Q
    rw [if_neg (fun hc => h q (List.mem_cons_self q ins) ⟨hc.1.symm, hc.2.symm⟩)]

theorem foldl_integStep_val (g : UGraph) (iv : ℕ → ℕ → ℚ) :
    ∀ (ins : List (ℕ × ℕ)) (tab : ℕ → ℕ → ℚ) (s : ℕ),
      (∀ q ∈ ins, q.1 = g.step) → (g.step, s) ∈ ins →
      (ins.foldl (integStep g iv) tab) (g.step - g.startStep) s = integratedOf g iv s := by
  intro ins
  induction ins with
  | nil => intro tab s _ hs; simp at hs
  | cons q ins ih =>
    intro tab s hall hs
    rw [List.foldl_cons]
    by_cases hsl : (g.step, s) ∈ ins
    · exact ih _ s (fun q' hq' => hall q' (List.mem_cons_of_mem q hq')) hsl
    · have hq : q = (g.step, s) := by
        rcases List.mem_cons.mp hs with h | h
        · exact h.symm
        · exact absurd h hsl
      rw [foldl_integStep_preserve g iv ins _ _ s ?hpres]
      case hpres =>
        intro q' hq' hc
        have h1 := hall q' (List.mem_cons_of_mem q hq')
        have : q' = (g.step, s) := by
          rcases q' with ⟨a, b⟩
          simp only at h1 hc
          rw [h1, hc.2]
        exact hsl (this ▸ hq')
      rw [hq]
      unfold integStep upd2Q
      rw [if_pos ⟨rfl, rfl⟩]

/-- Every pair produced by `compute_inputs` carries the current step and a
source index below `num_sources`, and corresponds to an admitted
decision. -/
theorem compute_inputs_mem (g : UGraph) (t s : ℕ)
    (hmem : (t, s) ∈ (compute_inputs g).1) :
    t = g.step ∧ s < g.numSources ∧ ∃ v, inputDecision g s = some v := by
  have h := (foldl_inputStep_mem g (List.range g.numSources) ([], g.inputValue) t s).mp hmem
  rcases h with h | ⟨h1, h2, h3⟩
  · simp at h
  · refine ⟨h2, List.mem_range.mp h1, ?_⟩
    cases hd : inputDecision g s with
    | some v => exact ⟨v, rfl⟩
    | none => exact absurd hd h3

/-- The updated `input_value` array holds the decided value at the
current step's row for every admitted source... -/
theorem compute_inputs_val (g : UGraph) (s : ℕ) (v : ℚ)
    (hs : s < g.numSources) (hv : inputDecision g s = some v) :
    (compute_inputs g).2 (g.step - g.startStep) s = v :=
  foldl_inputStep_val g (List.range g.numSources) ([], g.inputValue) s v hv
    (List.mem_range.mpr hs)

/-- ... and agrees with the original array on every other row. -/
theorem compute_inputs_other_rows (g : UGraph) (u s : ℕ)
    (hu : u ≠ g.step - g.startStep) :
    (compute_inputs g).2 u s = g.inputValue u s :=
  foldl_inputStep_preserve g (List.range g.numSources) ([], g.inputValue) u s (Or.inl hu)

/-- Counterexample for C3: the code has no special case that skips
criteria 1–2 for the terminating zero event.  At a concrete zero-event
candidate (stored raw input 0, integrated input 1/2, empower coefficient
1/2) the loop body applies criterion 1 and declares arrival, whereas the
skip-criteria variant that the claim describes keeps the candidate
flowing: the two classifications disagree on this input. -/
theorem claim_C3_counterexample :
    classifyK (1 / 10) 1 5 1 2 0 (1 / 2) (1 / 2) (1 / 2) 0 ⟨[], [], 0⟩
      = (Outcome.arrived (1 / 2) 0, none) ∧
    classifyKSkipZero (1 / 10) 1 5 1 2 0 (1 / 2) (1 / 2) (1 / 2) 0 ⟨[], [], 0⟩
      = (Outcome.flowing (1 / 2) (1 / 2), some ⟨[1 / 2], [1 / 2], 1 / 2⟩) ∧
    classifyK (1 / 10) 1 5 1 2 0 (1 / 2) (1 / 2) (1 / 2) 0 ⟨[], [], 0⟩
      ≠ classifyKSkipZero (1 / 10) 1 5 1 2 0 (1 / 2) (1 / 2) (1 / 2) 0 ⟨[], [], 0⟩ := by
  have e1 : classifyK (1 / 10) 1 5 1 2 0 (1 / 2) (1 / 2) (1 / 2) 0 ⟨[], [], 0⟩
      = (Outcome.arrived (1 / 2) 0, none) := by
    norm_num [classifyK]
  have e2 : classifyKSkipZero (1 / 10) 1 5 1 2 0 (1 / 2) (1 / 2) (1 / 2) 0 ⟨[], [], 0⟩
      = (Outcome.flowing (1 / 2) (1 / 2), some ⟨[1 / 2], [1 / 2], 1 / 2⟩) := by
    norm_num [classifyKSkipZero, flowTail]
  refine ⟨e1, e2, ?_⟩
  rw [e1, e2]
  exact fun h => Outcome.noConfusion (congrArg Prod.fst h)

/-- C3 (amended): the divisions of criteria 1–2 never divide by zero, not
because of any special case, but because every admitted input event —
including the terminating zero event — has a positive trapezoidal
integrated input: a positive event contributes at least half its own
magnitude and the zero event contributes half of the previous step's
positive stored magnitude.  Every admitted event also comes from an
explicit admission decision at the current step. -/
theorem claim_C3 (g : UGraph) (t s : ℕ)
    (hmem : (t, s) ∈ (compute_inputs g).1) :
    t = g.step ∧ (∃ v, inputDecision g s = some v) ∧
    0 < compute_integrated_inputs g (compute_inputs g).2 (compute_inputs g).1
        (t - g.startStep) s := by
  obtain ⟨ht, hs, v, hv⟩ := compute_inputs_mem g t s hmem
  refine ⟨ht, ⟨v, hv⟩, ?_⟩
  subst ht
  have hall : ∀ q ∈ (compute_inputs g).1, q.1 = g.step := by
    intro q hq
    rcases q with ⟨a, b⟩
    exact (compute_inputs_mem g a b hq).1
  have hint : compute_integrated_inputs g (compute_inputs g).2 (compute_inputs g).1
      (g.step - g.startStep) s = integratedOf g (compute_inputs g).2 s :=
    foldl_integStep_val g (compute_inputs g).2 (compute_inputs g).1
      g.integratedInput s hall hmem
  rw [hint]
  have hcur : (compute_inputs g).2 (g.step - g.startStep) s = v :=
    compute_inputs_val g s v hs hv
  simp only [integratedOf]
  rw [hcur]
  simp only [inputDecision] at hv
  set iv := (compute_inputs g).2 with hiv
  by_cases h1 : g.sourceFlow (g.sourceNodeNumber s) * g.uev (g.sourceNodeNumber s) *
      g.timeStep > 0
  · rw [if_pos h1] at hv
    have hvval : v = g.sourceFlow (g.sourceNodeNumber s) * g.uev (g.sourceNodeNumber s) *
        g.timeStep := (Option.some.injEq _ _ ▸ hv).symm
    have hvpos : 0 < v := hvval ▸ h1
    by_cases h2 : g.startStep + 1 ≤ g.step ∧ iv (g.step - 1 - g.startStep) s > 0
    · rw [if_pos h2]
      have := h2.2
      linarith
    · rw [if_neg h2]
      linarith
  · rw [if_neg h1] at hv
    by_cases h2 : g.startStep + 1 ≤ g.step ∧
        g.inputValue (g.step - 1 - g.startStep) s > 0
    · rw [if_pos h2] at hv
      have hv0 : v = 0 := (Option.some.injEq _ _ ▸ hv).symm
      have hrow : g.step - 1 - g.startStep ≠ g.step - g.startStep := by omega
      have hprev : iv (g.step - 1 - g.startStep) s
          = g.inputValue (g.step - 1 - g.startStep) s :=
        compute_inputs_other_rows g _ s hrow
      have h2' : g.startStep + 1 ≤ g.step ∧ iv (g.step - 1 - g.startStep) s > 0 :=
        ⟨h2.1, by rw [hprev]; exact h2.2⟩
      rw [if_pos h2', hv0, hprev]
      have := h2.2
      linarith
    · rw [if_neg h2] at hv
      exact absurd hv (fun hc => Option.noConfusion hc)

/-- Concrete state for the C3 witness: one source whose raw value
`3 · 1 · 1` is positive at step 0. -/
def exC3 : UGraph :=
  { exC4 with
    sourceFlow := fun _ => 3
    uev := fun _ => 1
    inputValue := fun _ _ => -1 }

/-- Witness for C3 (amended) at the concrete state `exC3`. -/
theorem claim_C3_witness :
    (0 : ℕ) = exC3.step ∧ (∃ v, inputDecision exC3 0 = some v) ∧
    0 < compute_integrated_inputs exC3 (compute_inputs exC3).2 (compute_inputs exC3).1
        (0 - exC3.startStep) 0 := by
  apply claim_C3 exC3 0 0
  norm_num [compute_inputs, inputStep, inputDecision, exC3, exC4, exC1,
    List.range_succ]

/-- C5: when a source's raw value drops to ≤ 0 at the current step while
the previous retained step holds a positive stored magnitude, admission
still records one terminating zero-valued event whose integrated value is
the trapezoid `0.5 · (previous + 0) > 0`; in general every admitted
input's integrated value is half the sum of the current stored value and
the previous step's stored magnitude (a missing or nonpositive previous
counting as 0); and a source whose previous stored magnitude is already
≤ 0 admits no further event while its raw value stays ≤ 0, so exactly one
terminating event is recorded. -/
theorem claim_C5 (g : UGraph) (source : ℕ) (hs : source < g.numSources) :
    (g.sourceFlow (g.sourceNodeNumber source) * g.uev (g.sourceNodeNumber source) *
          g.timeStep ≤ 0 →
      g.startStep + 1 ≤ g.step →
      0 < g.inputValue (g.step - 1 - g.startStep) source →
      (g.step, source) ∈ (compute_inputs g).1 ∧
      (compute_inputs g).2 (g.step - g.startStep) source = 0 ∧
      compute_integrated_inputs g (compute_inputs g).2 (compute_inputs g).1
          (g.step - g.startStep) source
        = (1 / 2) * (g.inputValue (g.step - 1 - g.startStep) source + 0) ∧
      0 < compute_integrated_inputs g (compute_inputs g).2 (compute_inputs g).1
          (g.step - g.startStep) source) ∧
    (∀ t s, (t, s) ∈ (compute_inputs g).1 →
      compute_integrated_inputs g (compute_inputs g).2 (compute_inputs g).1
          (t - g.startStep) s
        = (1 / 2) *
            ((if g.startStep + 1 ≤ g.step ∧ 0 < g.inputValue (g.step - 1 - g.startStep) s
              then g.inputValue (g.step - 1 - g.startStep) s else 0) +
              (compute_inputs g).2 (g.step - g.startStep) s)) ∧
    (∀ (h : UGraph) (src : ℕ),
      h.sourceFlow (h.sourceNodeNumber src) * h.uev (h.sourceNodeNumber src) *
          h.timeStep ≤ 0 →
      h.inputValue (h.step - 1 - h.startStep) src ≤ 0 →
      inputDecision h src = none) := by
  have hall : ∀ q ∈ (compute_inputs g).1, q.1 = g.step := by
    intro q hq
    rcases q with ⟨a, b⟩
    exact (compute_inputs_mem g a b hq).1
  have hrowOf : g.startStep + 1 ≤ g.step →
      g.step - 1 - g.startStep ≠ g.step - g.startStep := by omega
  refine ⟨?zeroEvent, ?trapezoid, ?noSecond⟩
  case zeroEvent =>
    intro hval hstep hprev
    have hdec : inputDecision g source = some 0 := by
      unfold inputDecision
      rw [if_neg (not_lt.mpr hval), if_pos ⟨hstep, hprev⟩]
    have hmem : (g.step, source) ∈ (compute_inputs g).1 := by
      apply (foldl_inputStep_mem g (List.range g.numSources) ([], g.inputValue)
        g.step source).mpr
      refine Or.inr ⟨List.mem_range.mpr hs, rfl, ?_⟩
      rw [hdec]
      exact fun hc => Option.noConfusion hc
    have hcur : (compute_inputs g).2 (g.step - g.startStep) source = 0 :=
      compute_inputs_val g source 0 hs hdec
    have hint : compute_integrated_inputs g (compute_inputs g).2 (compute_inputs g).1
        (g.step - g.startStep) source = integratedOf g (compute_inputs g).2 source :=
      foldl_integStep_val g (compute_inputs g).2 (compute_inputs g).1
        g.integratedInput source hall hmem
    have hpr : (compute_inputs g).2 (g.step - 1 - g.startStep) source
        = g.inputValue (g.step - 1 - g.startStep) source :=
      compute_inputs_other_rows g _ source (hrowOf hstep)
    have hintval : integratedOf g (compute_inputs g).2 source
        = (1 / 2) * (g.inputValue (g.step - 1 - g.startStep) source + 0) := by
      simp only [integratedOf]
      rw [hcur, if_pos ⟨hstep, by rw [hpr]; exact hprev⟩, hpr]
    refine ⟨hmem, hcur, by rw [hint, hintval], ?_⟩
    rw [hint, hintval]
    linarith
  case trapezoid =>
    intro t s hmem
    obtain ⟨ht, hs', v, hv⟩ := compute_inputs_mem g t s hmem
    subst ht
    have hint : compute_integrated_inputs g (compute_inputs g).2 (compute_inputs g).1
        (g.step - g.startStep) s = integratedOf g (compute_inputs g).2 s :=
      foldl_integStep_val g (compute_inputs g).2 (compute_inputs g).1
        g.integratedInput s hall hmem
    rw [hint]
    simp only [integratedOf]
    by_cases hg : g.startStep + 1 ≤ g.step
    · have hpr : (compute_inputs g).2 (g.step - 1 - g.startStep) s
          = g.inputValue (g.step - 1 - g.startStep) s :=
        compute_inputs_other_rows g _ s (hrowOf hg)
      rw [hpr]
    · rw [if_neg (fun hc => hg hc.1), if_neg (fun hc => hg hc.1)]
  case noSecond =>
    intro h src hval hprev
    unfold inputDecision
    rw [if_neg (not_lt.mpr hval), if_neg (fun hc => absurd hc.2 (not_lt.mpr hprev))]

/-- Concrete state for the C5 witness: the single source stored magnitude
4 at step 0 and its raw value is 0 at the current step 1. -/
def exC5 : UGraph :=
  { exC4 with
    sourceFlow := fun _ => 0
    uev := fun _ => 1
    step := 1
    len := 2
    inputValue := fun t s => if t = 0 ∧ s = 0 then 4 else -1 }

/-- Witness for C5 at the concrete state `exC5`: the terminating zero
event is admitted with integrated value `0.5 · (4 + 0) = 2 > 0`. -/
theorem claim_C5_witness :
    (exC5.step, (0 : ℕ)) ∈ (compute_inputs exC5).1 ∧
    (compute_inputs exC5).2 (exC5.step - exC5.startStep) 0 = 0 ∧
    compute_integrated_inputs exC5 (compute_inputs exC5).2 (compute_inputs exC5).1
        (exC5.step - exC5.startStep) 0
      = (1 / 2) * (exC5.inputValue (exC5.step - 1 - exC5.startStep) 0 + 0) ∧
    0 < compute_integrated_inputs exC5 (compute_inputs exC5).2 (compute_inputs exC5).1
        (exC5.step - exC5.startStep) 0 := by
  apply (claim_C5 exC5 0 (by norm_num [exC5, exC4, exC1])).1
  · norm_num [exC5, exC4, exC1]
  · norm_num [exC5, exC4, exC1]
  · norm_num [exC5, exC4, exC1]

/-- Empower/emergy sample trace used against C2's reading of the Cesàro
threshold, as `(step, eme, emp)` triples for a candidate with origin step
0, `MAX_STEPS = 3`, `NUM_CESARO = 2`, `EPSILON = 1/10`, step duration 1,
integrated input `10^9` and raw input 1: criteria 1–3 never fire, the
window fills with two samples of 10, then slides over 1000, 1000, 1, 1. -/
def c2Trace : List (ℕ × ℚ × ℚ) :=
  [(0, 1, 10), (1, 2, 10), (2, 4, 1000), (3, 8, 1000), (4, 16, 1), (5, 32, 1)]

/-- The candidate's recorded history after the trace, folded through the
loop body exactly as consecutive `convergence` calls would. -/
def c2Run : Option CState :=
  c2Trace.foldl
    (fun ocs x => ocs.bind
      (fun cs => (classifyK (1 / 10) 2 3 1 x.1 0 x.2.1 x.2.2 1000000000 1 cs).2))
    (some ⟨[], [], 0⟩)

/-- The arrival test described by claim C2, stated from the spec's words:
the average of the current sample window is below
`T/NUM_CESARO · EPSILON` with `T` the running sum of all positive empower
samples ever observed for the candidate. -/
def cesaroClaimTest (EPS : ℚ) (NCES : ℕ) (window : List ℚ) (Tall : ℚ) : Prop :=
  window.sum / (NCES : ℚ) < Tall / (NCES : ℚ) * EPS

/-- Counterexample for C2: after the reachable history `c2Run` (window
`[1, 1]` at capacity 2, `total_empower` still 20 because sliding never
updates it), the code keeps the candidate flowing at the next
classification, although the claim's test — with `T` the running sum 2023
of all positive empower samples ever observed — declares arrival. -/
theorem claim_C2_counterexample :
    c2Run = some ⟨[8, 16, 32], [1, 1], 20⟩ ∧
    (classifyK (1 / 10) 2 3 1 6 0 64 1 1000000000 1 ⟨[8, 16, 32], [1, 1], 20⟩).1
      = Outcome.flowing 64 1 ∧
    (((c2Trace.map (fun x : ℕ × ℚ × ℚ => x.2.2)) ++ [1]).filter
        (fun x : ℚ => 0 < x)).sum = 2023 ∧
    cesaroClaimTest (1 / 10) 2 [1, 1] 2023 := by
  refine ⟨?_, ?_, ?_, ?_⟩
  · norm_num [c2Run, c2Trace, classifyK, flowTail, CesaroCriterion, List.headD]
  · norm_num [classifyK, flowTail, CesaroCriterion, List.headD]
  · norm_num [c2Trace, List.filter]
  · norm_num [cesaroClaimTest]

/-- C2 (amended): for a pending candidate in the aged branch (criteria
1–3 false) whose sample window has reached capacity `NUM_CESARO`, arrival
is declared exactly when the window holds at least one positive sample and
the window's sum divided by its positive-sample count is below
`total_empower/NUM_CESARO · EPSILON`, where `total_empower` is the sum of
the positive empower samples recorded while the window was filling — it is
not updated when the window slides; otherwise the candidate stays flowing
and the window slides by dropping its oldest sample and appending the
current empower value, leaving `total_empower` unchanged. -/
theorem claim_C2 (EPS : ℚ) (NCES MAXS : ℕ) (dt : ℚ) (step time : ℕ)
    (eme emp intInput rawInput : ℚ) (cs : CState)
    (h1 : ¬(1 - emp * dt / intInput ≤ EPS))
    (h2 : ¬(1 - eme / intInput ≤ EPS))
    (haged : ¬(step < time + MAXS))
    (h3 : ¬(eme - (cs.lastEme ++ [eme]).headD 0 ≤ EPS * eme))
    (hfull : ¬(cs.lastEmp.length < NCES)) :
    (classifyK EPS NCES MAXS dt step time eme emp intInput rawInput cs
        = (Outcome.arrived eme 0, none)
      ↔ (0 < (cs.lastEmp.filter (fun x => x > 0)).length ∧
          cs.lastEmp.sum / (((cs.lastEmp.filter (fun x => x > 0)).length : ℕ) : ℚ)
            < cs.totalEmp / (NCES : ℚ) * EPS)) ∧
    (¬(0 < (cs.lastEmp.filter (fun x => x > 0)).length ∧
        cs.lastEmp.sum / (((cs.lastEmp.filter (fun x => x > 0)).length : ℕ) : ℚ)
          < cs.totalEmp / (NCES : ℚ) * EPS) →
      classifyK EPS NCES MAXS dt step time eme emp intInput rawInput cs
        = (Outcome.flowing eme emp,
            some ⟨(cs.lastEme ++ [eme]).tail, cs.lastEmp.tail ++ [emp], cs.totalEmp⟩)) := by
  have hcond : (CesaroCriterion EPS NCES cs.lastEmp cs.totalEmp = true)
      ↔ (0 < (cs.lastEmp.filter (fun x => x > 0)).length ∧
          cs.lastEmp.sum / (((cs.lastEmp.filter (fun x => x > 0)).length : ℕ) : ℚ)
            < cs.totalEmp / (NCES : ℚ) * EPS) := by
    unfold CesaroCriterion
    simp only [Bool.and_eq_true, decide_eq_true_eq]
  have hrun : classifyK EPS NCES MAXS dt step time eme emp intInput rawInput cs
      = if CesaroCriterion EPS NCES cs.lastEmp cs.totalEmp then
          (Outcome.arrived eme 0, none)
        else
          (Outcome.flowing eme emp,
            some ⟨(cs.lastEme ++ [eme]).tail, cs.lastEmp.tail ++ [emp], cs.totalEmp⟩) := by
    simp only [classifyK, flowTail]
    rw [if_neg h1, if_neg h2, if_neg haged, if_neg h3, if_neg hfull]
  rw [hrun]
  by_cases hces : 0 < (cs.lastEmp.filter (fun x => x > 0)).length ∧
      cs.lastEmp.sum / (((cs.lastEmp.filter (fun x => x > 0)).length : ℕ) : ℚ)
        < cs.totalEmp / (NCES : ℚ) * EPS
  · rw [if_pos (hcond.mpr hces)]
    exact ⟨⟨fun _ => hces, fun _ => rfl⟩, fun hn => absurd hces hn⟩
  · rw [if_neg (fun hb => hces (hcond.mp hb))]
    refine ⟨?_, fun _ => rfl⟩
    exact iff_of_false (fun h => Outcome.noConfusion (congrArg Prod.fst h)) hces

/-- Witness for C2 (amended) at the concrete aged candidate reached by
`c2Trace`: the window `[1, 1]` is full, the code's test `1 < 1` fails, so
the candidate flows and the window slides without touching
`total_empower`. -/
theorem claim_C2_witness :
    classifyK (1 / 10) 2 3 1 6 0 64 1 1000000000 1 ⟨[8, 16, 32], [1, 1], 20⟩
      = (Outcome.flowing 64 1, some ⟨[16, 32, 64], [1, 1], 20⟩) := by
  have h := (claim_C2 (1 / 10) 2 3 1 6 0 64 1 1000000000 1 ⟨[8, 16, 32], [1, 1], 20⟩
    (by norm_num) (by norm_num) (by norm_num) (by norm_num [List.headD])
    (by norm_num)).2
  have h2 := h (by norm_num [List.filter])
  simpa using h2

/-- The empower pass writes, into the cell of an existing source node
whose recorded arcs all resolve strictly later, the gated formula: the
successor sum over the final empower table times the integrated input over
the step duration when the flag is set and the stored input value is
positive, and `0` otherwise. -/
theorem empower_source_cell (g : UGraph) (p t n : ℕ)
    (ht : t ≤ g.step - g.startStep) (hn : n < g.numNodes) (hb : g.node t n = true)
    (hty : g.nodeType n = 0)
    (harc : ∀ s, s < g.numNodes → g.suc t n s = true →
      t + g.startStep < g.sucTime t n s) :
    empower_coefficients g t n p
      = if g.activeProduct t (g.sourceNumber n) p = true ∧
            g.inputValue t (g.sourceNumber n) > 0 then
          sum_suc_coef g (fun u m => empower_coefficients g u m p) t n *
            g.integratedInput t (g.sourceNumber n) / g.timeStep
        else 0 := by
  obtain ⟨tbl, hagree, heq⟩ := runPass_eq_cell g (empVal g p) t n ht hn hb
  have hsum : sum_suc_coef g tbl t n
      = sum_suc_coef g (fun u m => empower_coefficients g u m p) t n := by
    apply sum_suc_coef_congr
    intro s hs hsuc _
    exact hagree _ s (by have := harc s hs hsuc; omega)
  have hcell : empower_coefficients g t n p = empVal g p tbl t n := heq
  rw [hcell]
  unfold empVal
  rw [hty, hsum]
  norm_num

/-- Concrete state for the C6 counterexample: source node 0 at step 0
holds a terminating zero event (stored input value 0) whose flag toward
product 0 is still set, with integrated input 2 and one weight-1 arc to
the product node 1 resolving at the current step 1. -/
def exC6 : UGraph :=
  { exC1 with
    numNodes := 2
    numSources := 1
    numProducts := 1
    timeStep := 1
    startStep := 0
    step := 1
    len := 2
    nodeType := fun n => if n = 0 then 0 else 4
    productNodeNumber := fun _ => 1
    productNumber := fun _ => 0
    sourceNodeNumber := fun _ => 0
    sourceNumber := fun _ => 0
    node := fun t n => decide ((t = 0 ∧ n = 0) ∨ (t = 1 ∧ n = 1))
    suc := fun t n m => decide (t = 0 ∧ n = 0 ∧ m = 1)
    sucTime := fun t n m => if t = 0 ∧ n = 0 ∧ m = 1 then 1 else maxIntConst
    sucWeight := fun t n m => if t = 0 ∧ n = 0 ∧ m = 1 then 1 else 0
    inputValue := fun t s => if t = 0 ∧ s = 0 then 0 else -1
    integratedInput := fun t s => if t = 0 ∧ s = 0 then 2 else 0
    activeProduct := fun t s p => decide (t = 0 ∧ s = 0 ∧ p = 0) }

/-- Counterexample for C6: on `exC6` the Active-Product Flag of the
source is set, yet its empower coefficient is 0 and not the split/tank
successor sum times integrated input over step duration, which is 2 —
because the code additionally requires a positive stored input value,
which a terminating zero event does not have. -/
theorem claim_C6_counterexample :
    exC6.activeProduct 0 (exC6.sourceNumber 0) 0 = true ∧
    exC6.nodeType 0 = 0 ∧ exC6.node 0 0 = true ∧
    exC6.inputValue 0 (exC6.sourceNumber 0) = 0 ∧
    empower_coefficients exC6 0 0 0 = 0 ∧
    sum_suc_coef exC6 (fun u m => empower_coefficients exC6 u m 0) 0 0 *
        exC6.integratedInput 0 (exC6.sourceNumber 0) / exC6.timeStep = 2 ∧
    (0 : ℚ) ≠ 2 := by
  refine ⟨by decide, by decide, by decide, ?_, ?_, ?_, by norm_num⟩
  · norm_num [exC6, exC1]
  · norm_num [empower_coefficients, runPass, passKeysFrom, rowKeys, passStep, updT,
      empVal, max_suc_coef, sum_suc_coef, exC6, exC1, maxIntConst, List.range_succ]
  · norm_num [empower_coefficients, runPass, passKeysFrom, rowKeys, passStep, updT,
      empVal, max_suc_coef, sum_suc_coef, exC6, exC1, maxIntConst, List.range_succ]

/-- C6 (amended): for every existing source node whose recorded arcs all
resolve strictly later than its own step, the empower coefficient equals
the split/tank-style successor sum times the integrated input value
divided by the step duration when its Active-Product Flag is set and its
stored raw input value is positive; it is 0 whenever the flag is clear,
and also 0 whenever the stored raw input value is not positive (the
terminating zero event). -/
theorem claim_C6 (g : UGraph) (p t n : ℕ)
    (ht : t ≤ g.step - g.startStep) (hn : n < g.numNodes) (hb : g.node t n = true)
    (hty : g.nodeType n = 0)
    (harc : ∀ s, s < g.numNodes → g.suc t n s = true →
      t + g.startStep < g.sucTime t n s) :
    (g.activeProduct t (g.sourceNumber n) p = true →
      0 < g.inputValue t (g.sourceNumber n) →
      empower_coefficients g t n p
        = sum_suc_coef g (fun u m => empower_coefficients g u m p) t n *
            g.integratedInput t (g.sourceNumber n) / g.timeStep) ∧
    (g.activeProduct t (g.sourceNumber n) p = false →
      empower_coefficients g t n p = 0) ∧
    (g.inputValue t (g.sourceNumber n) ≤ 0 →
      empower_coefficients g t n p = 0) := by
  have hcell := empower_source_cell g p t n ht hn hb hty harc
  refine ⟨?_, ?_, ?_⟩
  · intro hact hraw
    rw [hcell, if_pos ⟨hact, hraw⟩]
  · intro hact
    rw [hcell, if_neg]
    rintro ⟨h1, _⟩
    rw [hact] at h1
    exact Bool.noConfusion h1
  · intro hraw
    rw [hcell, if_neg]
    rintro ⟨_, h2⟩
    exact absurd h2 (not_lt.mpr hraw)

/-- `exC6` with a positive stored input value 3 instead of the zero
event. -/
def exC6b : UGraph :=
  { exC6 with inputValue := fun t s => if t = 0 ∧ s = 0 then 3 else -1 }

/-- Witness for C6 (amended) at the concrete state `exC6b`. -/
theorem claim_C6_witness :
    empower_coefficients exC6b 0 0 0
      = sum_suc_coef exC6b (fun u m => empower_coefficients exC6b u m 0) 0 0 *
          exC6b.integratedInput 0 (exC6b.sourceNumber 0) / exC6b.timeStep := by
  exact (claim_C6 exC6b 0 0 0 (by decide) (by decide) (by decide) (by decide)
    (by decide)).1 (by decide) (by norm_num [exC6b, exC6, exC1])

/-!
Lemmas about node-existence bits (claim C8).
-/

theorem upd2B_true (f : ℕ → ℕ → Bool) (x y t n : ℕ) (hb : f t n = true) :
    upd2B f x y true t n = true := by
  unfold upd2B
  split
  · rfl
  · exact hb

theorem extend_preserve (g : UGraph) (k t n : ℕ) (ht : t < g.len)
    (hb : g.node t n = true) :
    t < (extend g k).len ∧ (extend g k).node t n = true := by
  refine ⟨?_, ?_⟩
  · show t < g.len + k
    omega
  · show (if t < g.len then g.node t n else false) = true
    rw [if_pos ht]
    exact hb

theorem add_node_eq_pos (g : UGraph) (a b : ℕ) (hc : a + 1 > g.len) :
    add_node g a b = { extend g (a + 1 - g.len) with
      node := upd2B (extend g (a + 1 - g.len)).node
        (a - (extend g (a + 1 - g.len)).startStep) b true } := by
  simp only [add_node]
  rw [if_pos hc]

theorem add_node_eq_neg (g : UGraph) (a b : ℕ) (hc : ¬(a + 1 > g.len)) :
    add_node g a b = { g with node := upd2B g.node (a - g.startStep) b true } := by
  simp only [add_node]
  rw [if_neg hc]

theorem add_node_preserve (g : UGraph) (a b t n : ℕ) (ht : t < g.len)
    (hb : g.node t n = true) :
    t < (add_node g a b).len ∧ (add_node g a b).node t n = true := by
  by_cases hc : a + 1 > g.len
  · rw [add_node_eq_pos g a b hc]
    obtain ⟨h1, h2⟩ := extend_preserve g (a + 1 - g.len) t n ht hb
    exact ⟨h1, upd2B_true _ _ _ _ _ h2⟩
  · rw [add_node_eq_neg g a b hc]
    exact ⟨ht, upd2B_true _ _ _ _ _ hb⟩

theorem add_successors_preserve (g : UGraph) (m : ℕ) (l : List (ℕ × ℕ × ℚ))
    (t n : ℕ) (ht : t < g.len) (hb : g.node t n = true) :
    t < (add_successors g m l).len ∧ (add_successors g m l).node t n = true := by
  unfold add_successors
  induction l generalizing g with
  | nil => exact ⟨ht, hb⟩
  | cons si l ih =>
    rw [List.foldl_cons]
    apply ih
    · exact (add_node_preserve g si.1 si.2.1 t n ht hb).1
    · exact (add_node_preserve g si.1 si.2.1 t n ht hb).2

/-- The loop body of `unfold` as a named function of the enclosing state's
current offset. -/
def unfoldStepF (g : UGraph) (g' : UGraph) (node : ℕ) : UGraph :=
  if g'.node (g.step - g.startStep) node = true then
    add_successors g' node
      (((g'.graphSuccessors node).filter (fun s => g'.isOperational node s)).map
        (fun s => (s, g'.step + g'.numStepsArc node s, g'.weightArc node s)))
  else g'

theorem unfold_eq (g : UGraph) :
    unfold g = if g.step - g.startStep < g.len then
      (List.range g.numNodes).foldl (unfoldStepF g) g else g := rfl

theorem unfold_preserve (g : UGraph) (t n : ℕ) (ht : t < g.len)
    (hb : g.node t n = true) :
    (unfold g).node t n = true := by
  rw [unfold_eq]
  split
  · suffices hgen : ∀ (l : List ℕ) (g' : UGraph), t < g'.len → g'.node t n = true →
        t < (l.foldl (unfoldStepF g) g').len ∧
          (l.foldl (unfoldStepF g) g').node t n = true by
      exact (hgen _ g ht hb).2
    intro l
    induction l with
    | nil => intro g' ht' hb'; exact ⟨ht', hb'⟩
    | cons a l ih =>
      intro g' ht' hb'
      rw [List.foldl_cons]
      apply ih
      unfold unfoldStepF
      split
      · exact (add_successors_preserve g' a _ t n ht' hb').1
      · exact ht'
      unfold unfoldStepF
      split
      · exact (add_successors_preserve g' a _ t n ht' hb').2
      · exact hb'
  · exact hb

/-- Concrete state for the C8 counterexample: source node 0 exists at
step 0 and has already been unfolded (its arc to node 1 is recorded), its
input event is stored with value 5, and all of its Active-Product Flags
are clear, so inactive-input removal clears its existence bit even though
it was unfolded. -/
def exC8 : UGraph :=
  { exC6 with
    activeProduct := fun _ _ _ => false
    inputValue := fun t s => if t = 0 ∧ s = 0 then 5 else -1
    reachable := fun _ => [1] }

/-- Counterexample for C8: on `exC8` the source node `(0, 0)` has been
unfolded (a successor arc is recorded for it), yet inactive-input removal
clears its existence bit — clearing is not restricted to nodes that have
not been unfolded. -/
theorem claim_C8_counterexample :
    exC8.node 0 0 = true ∧
    exC8.suc 0 0 1 = true ∧
    (remove_inactive_inputs exC8).node 0 0 = false := by
  refine ⟨by decide, by decide, ?_⟩
  norm_num [remove_inactive_inputs, inactiveInput, exC8, exC6, exC1, List.range_succ]

/-- C8 (amended): a set existence bit within the retained rows is
preserved by `add_node`, `add_successors`, `unfold` and `extend`; the only
operation that clears one is `remove_inactive_inputs`, and only for the
node of an input-origin source whose input is inactive (all flags clear) —
regardless of whether that node has already been unfolded
(`claim_C8_counterexample` shows it clears an unfolded node's bit). -/
theorem claim_C8 (g : UGraph) (t n : ℕ) (ht : t < g.len) (hb : g.node t n = true) :
    (∀ a b, (add_node g a b).node t n = true) ∧
    (∀ m l, (add_successors g m l).node t n = true) ∧
    ((unfold g).node t n = true) ∧
    (∀ k, (extend g k).node t n = true) ∧
    ((remove_inactive_inputs g).node t n = false →
      ∃ s, s < g.numSources ∧ g.sourceNodeNumber s = n ∧
        t ≤ g.step - g.startStep ∧ inactiveInput g t s = true) := by
  refine ⟨fun a b => (add_node_preserve g a b t n ht hb).2,
    fun m l => (add_successors_preserve g m l t n ht hb).2,
    unfold_preserve g t n ht hb,
    fun k => (extend_preserve g k t n ht hb).2,
    ?_⟩
  intro hfalse
  unfold remove_inactive_inputs at hfalse
  simp only [] at hfalse
  by_cases hany : (List.range g.numSources).any
      (fun s => decide (t ≤ g.step - g.startStep) && inactiveInput g t s &&
        decide (g.sourceNodeNumber s = n)) = true
  · rcases List.any_eq_true.mp hany with ⟨s, hsmem, hsb⟩
    rw [Bool.and_eq_true, Bool.and_eq_true] at hsb
    exact ⟨s, List.mem_range.mp hsmem, of_decide_eq_true hsb.2,
      of_decide_eq_true hsb.1.1, hsb.1.2⟩
  · rw [if_neg (fun hc => hany hc)] at hfalse
    rw [hb] at hfalse
    exact Bool.noConfusion hfalse

/-- Witness for C8 (amended): on `exC1` the coproduct node `(0, 0)` exists
and is preserved by an unrelated `add_node` and by `unfold`. -/
theorem claim_C8_witness :
    (add_node exC1 2 3).node 0 0 = true ∧ (unfold exC1).node 0 0 = true := by
  have h := claim_C8 exC1 0 0 (by decide) (by decide)
  exact ⟨h.1 2 3, h.2.2.1⟩

/-!
Lemmas for the trim operation (claim C7).
-/

theorem findFrom_spec (pred : ℕ → Bool) :
    ∀ (fuel a t0 : ℕ), a ≤ t0 → t0 < a + fuel → pred t0 = true →
      (∀ u, a ≤ u → u < t0 → pred u = false) →
      findFrom pred a fuel = t0 := by
  intro fuel
  induction fuel with
  | zero => intro a t0 h1 h2 _ _; omega
  | succ f ih =>
    intro a t0 h1 h2 hp hmin
    unfold findFrom
    by_cases ha : pred a = true
    · have hat : t0 = a := by
        by_contra hne
        have hlt : a < t0 := lt_of_le_of_ne h1 (Ne.symm hne)
        have := hmin a (le_refl a) hlt
        rw [ha] at this
        exact Bool.noConfusion this
      rw [if_pos ha, hat]
    · have hat : a < t0 := by
        rcases Nat.lt_or_ge a t0 with h | h
        · exact h
        · exact absurd (by rw [le_antisymm h h1] at hp; exact hp) ha
      rw [if_neg ha]
      by_cases hf : f = 0
      · exact absurd hat (by omega)
      · rw [if_neg hf]
        exact ih (a + 1) t0 hat (by omega) hp (fun u hu1 hu2 => hmin u (by omega) hu2)

/-- C7: assuming the creation invariants — every true flag lies in range,
its input event is stored (value ≥ 0), and its product is reachable from
its source — the trim never discards a row with a true flag: after
inactive-input removal the window start advances exactly to `t0`, the
earliest offset carrying a true flag, rows shift down by `t0` (so only
strictly earlier rows, which carry no flag, are removed), and the flags
themselves are preserved under the shift. -/
theorem claim_C7 (g : UGraph) (t0 s0 p0 : ℕ)
    (hRange : ∀ t s p, g.activeProduct t s p = true →
      t ≤ g.step - g.startStep ∧ s < g.numSources ∧ p < g.numProducts)
    (hInp : ∀ t s p, g.activeProduct t s p = true → 0 ≤ g.inputValue t s)
    (hReach : ∀ t s p, g.activeProduct t s p = true →
      ∃ pn ∈ g.reachable (g.sourceNodeNumber s), g.productNumber pn = p)
    (hpend : g.activeProduct t0 s0 p0 = true)
    (hmin : ∀ t, t < t0 → ∀ s p, g.activeProduct t s p = false) :
    find_earliest_active_source (remove_inactive_inputs g) = t0 ∧
    (clean g).startStep = g.startStep + t0 ∧
    (∀ t s p, (clean g).activeProduct t s p = g.activeProduct (t + t0) s p) ∧
    (∀ t n, (clean g).node t n = (remove_inactive_inputs g).node (t + t0) n) := by
  obtain ⟨ht0T, hs0, _⟩ := hRange t0 s0 p0 hpend
  have hiv1 : ∀ t s, (remove_inactive_inputs g).inputValue t s
      = if t ≤ g.step - g.startStep ∧ s < g.numSources ∧ inactiveInput g t s = true
        then -1 else g.inputValue t s := fun t s => rfl
  have hinact0 : inactiveInput g t0 s0 = false := by
    rw [Bool.eq_false_iff]
    intro hia
    unfold inactiveInput at hia
    rw [Bool.and_eq_true] at hia
    obtain ⟨pn, hpnmem, hpnval⟩ := hReach t0 s0 p0 hpend
    have hall := List.all_eq_true.mp hia.2 pn hpnmem
    rw [hpnval, hpend] at hall
    exact Bool.noConfusion hall
  have hpred0 : ((List.range g.numSources).any
      (fun s => decide (0 ≤ (remove_inactive_inputs g).inputValue t0 s))) = true := by
    apply List.any_eq_true.mpr
    refine ⟨s0, List.mem_range.mpr hs0, ?_⟩
    apply decide_eq_true
    rw [hiv1 t0 s0, if_neg (fun hc => by rw [hinact0] at hc; exact Bool.noConfusion hc.2.2)]
    exact hInp t0 s0 p0 hpend
  have hpredlt : ∀ u, u < t0 → ((List.range g.numSources).any
      (fun s => decide (0 ≤ (remove_inactive_inputs g).inputValue u s))) = false := by
    intro u hu
    rw [Bool.eq_false_iff]
    intro hany
    rcases List.any_eq_true.mp hany with ⟨s, hsmem, hsdec⟩
    have hs := List.mem_range.mp hsmem
    have hge := of_decide_eq_true hsdec
    rw [hiv1 u s] at hge
    by_cases hc : 0 ≤ g.inputValue u s
    · have hia : inactiveInput g u s = true := by
        unfold inactiveInput
        rw [Bool.and_eq_true]
        refine ⟨decide_eq_true hc, List.all_eq_true.mpr ?_⟩
        intro pn _
        rw [hmin u hu s (g.productNumber pn)]
        rfl
      rw [if_pos ⟨by omega, hs, hia⟩] at hge
      norm_num at hge
    · have hni : ¬(u ≤ g.step - g.startStep ∧ s < g.numSources ∧
          inactiveInput g u s = true) := by
        rintro ⟨_, _, hia⟩
        unfold inactiveInput at hia
        rw [Bool.and_eq_true] at hia
        exact hc (of_decide_eq_true hia.1)
      rw [if_neg hni] at hge
      exact hc hge
  have hfind : find_earliest_active_source (remove_inactive_inputs g) = t0 := by
    unfold find_earliest_active_source
    exact findFrom_spec _ (g.step - g.startStep + 1) 0 t0 (Nat.zero_le t0)
      (by omega) hpred0 (fun u _ hu => hpredlt u hu)
  refine ⟨hfind, ?_, ?_, ?_⟩
  · show (remove_nodes_before_start_step (remove_inactive_inputs g)).startStep
      = g.startStep + t0
    unfold remove_nodes_before_start_step
    rw [hfind]
    rfl
  · intro t s p
    show (remove_nodes_before_start_step (remove_inactive_inputs g)).activeProduct t s p
      = g.activeProduct (t + t0) s p
    unfold remove_nodes_before_start_step
    rw [hfind]
    rfl
  · intro t n
    show (remove_nodes_before_start_step (remove_inactive_inputs g)).node t n
      = (remove_inactive_inputs g).node (t + t0) n
    unfold remove_nodes_before_start_step
    rw [hfind]
    rfl

/-- Concrete state for the C7 witness: a stale input at row 0 (value 1,
all flags clear) and a pending input at row 1 (value 2, flag set toward
product 0). -/
def exC7 : UGraph :=
  { exC6 with
    reachable := fun _ => [1]
    inputValue := fun t s =>
      if t = 0 ∧ s = 0 then 1 else if t = 1 ∧ s = 0 then 2 else -1
    activeProduct := fun t s p => decide (t = 1 ∧ s = 0 ∧ p = 0) }

/-- Witness for C7 at the concrete state `exC7`: the window start advances
exactly past the stale row 0 to the pending row 1. -/
theorem claim_C7_witness :
    find_earliest_active_source (remove_inactive_inputs exC7) = 1 ∧
    (clean exC7).startStep = exC7.startStep + 1 := by
  have h := claim_C7 exC7 1 0 0 ?hRange ?hInp ?hReach (by decide) ?hmin
  case hRange =>
    intro t s p hf
    have hc := of_decide_eq_true hf
    simp only [exC7, exC6, exC1]
    exact ⟨by omega, by omega, by omega⟩
  case hInp =>
    intro t s p hf
    have hc := of_decide_eq_true hf
    rcases hc with ⟨ht, hs, hp⟩
    subst ht; subst hs
    norm_num [exC7, exC6, exC1]
  case hReach =>
    intro t s p hf
    have hc := of_decide_eq_true hf
    rcases hc with ⟨ht, hs, hp⟩
    subst hs; subst hp
    exact ⟨1, by norm_num [exC7, exC6, exC1], by norm_num [exC7, exC6, exC1]⟩
  case hmin =>
    intro t ht s p
    apply decide_eq_false
    rintro ⟨h1, _⟩
    omega
  exact ⟨h.1, h.2.1⟩

end Emergy
